import Mathlib

/-!
Verification development for the aws-cfn-bootstrap agent.

Shallow embedding of the core algorithms of the repository, translated
from the Python sources under `cfnbootstrap/`:

  * `util.py` - exponential backoff, retry taxonomy, ETag checking,
    dotted-path metadata accessor, S3 URL recognition;
  * `construction.py` - configSet parsing, cycle detection and the
    Kahn topological collapse of configSet references;
  * `sources_tool.py` - the archive member path check;
  * `auth.py` - the default composite request signer;
  * `update_hooks.py` - the hook trigger state machine;
  * `json_file_manager.py` - the persisted-value Converter.

Machine integers do not occur on any verified path; Python floats from
`random.random()` are modelled as rationals in `[0, 1)`.  External
libraries (hashlib, requests transport) are modelled as opaque function
parameters; the logic of the repository itself is translated faithfully.
-/

set_option maxHeartbeats 1000000

namespace CfnBootstrap

/-! ### Association-list helpers

Python `dict` objects are modelled as association lists with unique keys
(dict literals parsed from JSON cannot repeat a key); `alookup` is `d[k]`
returning `none` for a missing key, `alerase` is `del d[k]` / `dict.pop`,
`alset` is `d[k] = v`.
-/

def alookup {α : Type} : List (String × α) → String → Option α
  | [], _ => none
  | (k, v) :: t, s => if k = s then some v else alookup t s

def alset {α : Type} : List (String × α) → String → α → List (String × α)
  | [], s, v => [(s, v)]
  | (k, w) :: t, s, v => if k = s then (k, v) :: t else (k, w) :: alset t s v

def alerase {α : Type} : List (String × α) → String → List (String × α)
  | [], _ => []
  | (k, w) :: t, s => if k = s then t else (k, w) :: alerase t s

/-! ### util.py - retry taxonomy and exponential backoff -/

/-- Retry modes of `util.RemoteError` (`retry_modes` frozenset). -/
inductive RetryMode where
  | terminal
  | retriable
  | retriableForever
deriving DecidableEq, Repr

/-- Model of `util.RemoteError`: the HTTP status code (when the error came
from an HTTP response; `None` for SSL, checksum, connection and timeout
errors) and the retry mode.  The human-readable message is dropped. -/
structure RemoteError where
  code : Option Nat
  retryMode : RetryMode
deriving DecidableEq, Repr

/-- Model of `util._extract_http_error`: classify a failed HTTP response by
its status code.  503 is RETRIABLE_FOREVER; a status below 500 that is not
404 and not 408 is TERMINAL; everything else is RETRIABLE. -/
def extractHttpError (status : Nat) : RemoteError :=
  if status = 503 then ⟨some status, .retriableForever⟩
  else if status < 500 ∧ status ≠ 404 ∧ status ≠ 408 then ⟨some status, .terminal⟩
  else ⟨some status, .retriable⟩

/-- Model of `util.exponential_backoff`: `random.random()` is modelled as a
stream `rand` of rationals (the caller of the theorems assumes each value
lies in `[0, 1)`, as `random.random` guarantees).  Slot `i` of the schedule
is `rand i * min maxSleep (2 ^ i - 1)`. -/
def exponentialBackoff (rand : Nat → ℚ) (maxTries : Nat) (maxSleep : ℚ) : List ℚ :=
  (List.range maxTries).map (fun i => rand i * min maxSleep (2 ^ i - 1))

/-- Model of `util.extend_backoff`: append one more slot computed with the
same formula at index `durations.length`. -/
def extendBackoff (rand : Nat → ℚ) (maxSleep : ℚ) (durations : List ℚ) : List ℚ :=
  durations ++ [rand durations.length * min maxSleep (2 ^ durations.length - 1)]

/-- One attempt outcome of the wrapped function inside
`util.retry_on_failure`: it either returns, or raises one of the exception
classes handled by the decorator. -/
inductive Outcome where
  | success
  | sslError
  | checksumError
  | connectionError
  | timeout
  | httpError (status : Nat)
deriving DecidableEq, Repr

/-- Result of a run of the retry loop.  `outOfFuel` is an artefact of the
embedding: the Python loop can run forever when every attempt yields a 503
(each such failure extends the schedule), so the model is fuel-indexed.
`nameErrorLastUnbound` models the `NameError` Python would raise in the
`for ... else` clause when the schedule was empty from the start
(`max_tries = 0`), in which case `last_error` was never bound. -/
inductive RunResult where
  | succeeded (attempt : Nat)
  | raised (e : RemoteError)
  | outOfFuel
  | nameErrorLastUnbound
deriving DecidableEq, Repr

/-- Model of the loop inside `util.retry_on_failure`: `att i` is the outcome
of the `i`-th call of the wrapped function, `k` the current index into the
schedule `durations`, `last` the last retriable error seen.  Sleeping does
not affect the result and is not modelled.  An SSLError is rethrown as a
TERMINAL RemoteError at once; a TERMINAL HTTP error is raised at once; a 503
extends the schedule by one slot; checksum, connection and timeout errors
become RETRIABLE RemoteErrors with no status code.  When the schedule is
exhausted the last error is raised. -/
def retryFinish : Option RemoteError → RunResult
  | some e => .raised e
  | none => .nameErrorLastUnbound

def retryLoop (att : Nat → Outcome) (rand : Nat → ℚ) (maxSleep : ℚ) :
    Nat → Nat → List ℚ → Option RemoteError → RunResult
  | 0, k, durations, last =>
    if k < durations.length then .outOfFuel else retryFinish last
  | fuel + 1, k, durations, last =>
    if k < durations.length then
      match att k with
      | .success => .succeeded k
      | .sslError => .raised ⟨none, .terminal⟩
      | .checksumError =>
          retryLoop att rand maxSleep fuel (k + 1) durations (some ⟨none, .retriable⟩)
      | .connectionError =>
          retryLoop att rand maxSleep fuel (k + 1) durations (some ⟨none, .retriable⟩)
      | .timeout =>
          retryLoop att rand maxSleep fuel (k + 1) durations (some ⟨none, .retriable⟩)
      | .httpError s =>
          let e := extractHttpError s
          match e.retryMode with
          | .terminal => .raised e
          | .retriableForever =>
              retryLoop att rand maxSleep fuel (k + 1)
                (extendBackoff rand maxSleep durations) (some e)
          | .retriable =>
              retryLoop att rand maxSleep fuel (k + 1) durations (some e)
    else retryFinish last

/-- Model of a call of a function decorated with
`util.retry_on_failure(max_tries)`: run the retry loop from index 0 on a
fresh `exponential_backoff(max_tries)` schedule (default `max_sleep = 20`). -/
def retryRun (att : Nat → Outcome) (rand : Nat → ℚ) (maxTries fuel : Nat) : RunResult :=
  retryLoop att rand 20 fuel 0 (exponentialBackoff rand maxTries 20) none

lemma retryLoop_step (att : Nat → Outcome) (rand : Nat → ℚ) (ms : ℚ)
    (fuel k : Nat) (dur : List ℚ) (last : Option RemoteError)
    (h : k < dur.length) :
    retryLoop att rand ms (fuel + 1) k dur last =
      match att k with
      | .success => .succeeded k
      | .sslError => .raised ⟨none, .terminal⟩
      | .checksumError => retryLoop att rand ms fuel (k + 1) dur (some ⟨none, .retriable⟩)
      | .connectionError => retryLoop att rand ms fuel (k + 1) dur (some ⟨none, .retriable⟩)
      | .timeout => retryLoop att rand ms fuel (k + 1) dur (some ⟨none, .retriable⟩)
      | .httpError s =>
          match (extractHttpError s).retryMode with
          | .terminal => .raised (extractHttpError s)
          | .retriableForever =>
              retryLoop att rand ms fuel (k + 1) (extendBackoff rand ms dur)
                (some (extractHttpError s))
          | .retriable => retryLoop att rand ms fuel (k + 1) dur (some (extractHttpError s)) := by
  rw [retryLoop, if_pos h]

lemma retryLoop_exhausted (att : Nat → Outcome) (rand : Nat → ℚ) (ms : ℚ)
    (fuel k : Nat) (dur : List ℚ) (e : RemoteError)
    (h : ¬ k < dur.length) :
    retryLoop att rand ms fuel k dur (some e) = .raised e := by
  cases fuel with
  | zero => rw [retryLoop, if_neg h]; rfl
  | succ f => rw [retryLoop, if_neg h]; rfl

lemma retryLoop_allTimeout (att : Nat → Outcome) (rand : Nat → ℚ) (ms : ℚ) :
    ∀ (fuel k : Nat) (dur : List ℚ) (last : Option RemoteError),
    (∀ i, i < dur.length → att i = Outcome.timeout) →
    dur.length ≤ k + fuel → k < dur.length →
    retryLoop att rand ms fuel k dur last = .raised ⟨none, .retriable⟩ := by
  intro fuel
  induction fuel with
  | zero => intro k dur last _ hle hk; omega
  | succ f ih =>
    intro k dur last hatt hle hk
    rw [retryLoop_step att rand ms f k dur last hk, hatt k hk]
    by_cases hk2 : k + 1 < dur.length
    · exact ih (k + 1) dur _ hatt (by omega) hk2
    · exact retryLoop_exhausted att rand ms f (k + 1) dur _ hk2

lemma getD_exponentialBackoff (rand : Nat → ℚ) (maxTries : Nat) (maxSleep : ℚ)
    (i : Nat) (hi : i < maxTries) :
    (exponentialBackoff rand maxTries maxSleep).getD i 37 =
      rand i * min maxSleep (2 ^ i - 1) := by
  unfold exponentialBackoff
  rw [List.getD_eq_getElem?_getD, List.getElem?_map, List.getElem?_range hi]
  rfl

/-- C5 counterexample: the claim places each sleep slot of the default
schedule in the half-open interval `[0, min(20, 2 ^ i - 1))`, including
`i = 0`.  At `i = 0` that interval is `[0, 0)`, which is empty, while the
slot itself evaluates to `0`: the slot is not in the claimed interval. -/
theorem backoff_slot_zero_counterexample :
    ¬ ((exponentialBackoff (fun _ => 1/2) 5 20).getD 0 37 < min (20:ℚ) (2 ^ (0:Nat) - 1)) := by
  rw [getD_exponentialBackoff (fun _ => 1/2) 5 20 0 (by norm_num)]
  norm_num

/-- C5 (amended): for any `random.random` stream with values in `[0, 1)`,
the schedule for `maxTries = 5`, `maxSleep = 20` has exactly 5 slots; slot 0
is exactly 0 (so the first attempt never sleeps); slot `i` for `1 ≤ i ≤ 4`
lies in `[0, min(20, 2 ^ i - 1))`; each RETRIABLE_FOREVER failure appends
exactly one slot computed by the same formula at `i = len(schedule)`; and
once the schedule is exhausted the retry wrapper raises the last error
seen (illustrated both in general and for a run of five timeouts). -/
theorem backoff_schedule_spec (rand : Nat → ℚ) (hr : ∀ i, 0 ≤ rand i ∧ rand i < 1) :
    (exponentialBackoff rand 5 20).length = 5
    ∧ (exponentialBackoff rand 5 20).getD 0 37 = 0
    ∧ (∀ i, 1 ≤ i → i < 5 →
        0 ≤ (exponentialBackoff rand 5 20).getD i 37
        ∧ (exponentialBackoff rand 5 20).getD i 37 < min 20 (2 ^ i - 1))
    ∧ (∀ durations : List ℚ, extendBackoff rand 20 durations
        = durations ++ [rand durations.length * min 20 (2 ^ durations.length - 1)])
    ∧ (∀ (att : Nat → Outcome) (fuel k : Nat) (dur : List ℚ) (e : RemoteError),
        ¬ k < dur.length → retryLoop att rand 20 fuel k dur (some e) = .raised e)
    ∧ (∀ att : Nat → Outcome, (∀ i, i < 5 → att i = Outcome.timeout) →
        retryRun att rand 5 6 = .raised ⟨none, .retriable⟩) := by
  have hlen : (exponentialBackoff rand 5 20).length = 5 := by
    simp [exponentialBackoff]
  refine ⟨hlen, ?_, ?_, ?_, ?_, ?_⟩
  · rw [getD_exponentialBackoff rand 5 20 0 (by norm_num)]
    norm_num
  · intro i h1 h5
    rw [getD_exponentialBackoff rand 5 20 i h5]
    have hmpos : (0:ℚ) < min 20 (2 ^ i - 1) := by
      have h2 : (2:ℚ) ^ 1 ≤ 2 ^ i := by
        apply pow_le_pow_right₀ (by norm_num) h1
      simp only [pow_one] at h2
      exact lt_min (by norm_num) (by linarith)
    constructor
    · exact mul_nonneg (hr i).1 (le_of_lt hmpos)
    · calc rand i * min 20 (2 ^ i - 1) < 1 * min 20 (2 ^ i - 1) :=
            mul_lt_mul_of_pos_right (hr i).2 hmpos
        _ = min 20 (2 ^ i - 1) := one_mul _
  · intro durations; rfl
  · intro att fuel k dur e h
    exact retryLoop_exhausted att rand 20 fuel k dur e h
  · intro att hatt
    unfold retryRun
    apply retryLoop_allTimeout
    · intro i hi; exact hatt i (by omega)
    · omega
    · omega

/-- C5 witness: the amended schedule properties evaluated at the constant
stream `1/2`. -/
theorem backoff_schedule_spec_witness :
    (exponentialBackoff (fun _ => 1/2) 5 20).length = 5
    ∧ (exponentialBackoff (fun _ => 1/2) 5 20).getD 0 37 = 0
    ∧ (0 ≤ (exponentialBackoff (fun _ => 1/2) 5 20).getD 2 37
        ∧ (exponentialBackoff (fun _ => 1/2) 5 20).getD 2 37 < min 20 (2 ^ 2 - 1))
    ∧ extendBackoff (fun _ => 1/2) 20 []
        = [] ++ [(1:ℚ)/2 * min 20 (2 ^ (List.length ([]:List ℚ)) - 1)]
    ∧ retryLoop (fun _ => .timeout) (fun _ => 1/2) 20 3 7 [0, 0] (some ⟨some 500, .retriable⟩)
        = .raised ⟨some 500, .retriable⟩
    ∧ retryRun (fun _ => .timeout) (fun _ => 1/2) 5 6 = .raised ⟨none, .retriable⟩ := by
  obtain ⟨h1, h2, h3, h4, h5, h6⟩ :=
    backoff_schedule_spec (fun _ => 1/2) (by intro i; norm_num)
  exact ⟨h1, h2, h3 2 (by norm_num) (by norm_num), h4 [],
    h5 (fun _ => .timeout) 3 7 [0, 0] ⟨some 500, .retriable⟩ (by norm_num),
    h6 (fun _ => .timeout) (fun i _ => rfl)⟩

/-- C4 counterexample: the claim states that every 4xx status other than
408 is TERMINAL, but `_extract_http_error` classifies 404 as RETRIABLE
(404 is excluded together with 408 by the `not in (404, 408)` test). -/
theorem http_error_404_counterexample :
    extractHttpError 404 = ⟨some 404, .retriable⟩
    ∧ RetryMode.retriable ≠ RetryMode.terminal := by
  constructor
  · rfl
  · intro h; cases h

/-- C4 (amended): the retry taxonomy of `_extract_http_error` together with
the handling of each exception class inside `retry_on_failure`: 503 is
RETRIABLE_FOREVER; every 4xx other than 404 and 408 is TERMINAL; 404, 408
and every 5xx other than 503 are RETRIABLE; a TERMINAL HTTP error and a
certificate (SSL) error are raised immediately with no further attempt;
connection errors, timeouts and checksum mismatches continue the loop with
a RETRIABLE RemoteError carrying no status code. -/
theorem retry_taxonomy_spec :
    (extractHttpError 503 = ⟨some 503, .retriableForever⟩)
    ∧ (∀ s : Nat, 400 ≤ s → s < 500 → s ≠ 404 → s ≠ 408 →
        extractHttpError s = ⟨some s, .terminal⟩)
    ∧ (extractHttpError 404 = ⟨some 404, .retriable⟩
        ∧ extractHttpError 408 = ⟨some 408, .retriable⟩)
    ∧ (∀ s : Nat, 500 ≤ s → s < 600 → s ≠ 503 →
        extractHttpError s = ⟨some s, .retriable⟩)
    ∧ (∀ (att : Nat → Outcome) (rand : Nat → ℚ) (ms : ℚ) (fuel k : Nat)
        (dur : List ℚ) (last : Option RemoteError) (s : Nat),
        k < dur.length → att k = Outcome.httpError s →
        (extractHttpError s).retryMode = .terminal →
        retryLoop att rand ms (fuel + 1) k dur last = .raised (extractHttpError s))
    ∧ (∀ (att : Nat → Outcome) (rand : Nat → ℚ) (ms : ℚ) (fuel k : Nat)
        (dur : List ℚ) (last : Option RemoteError),
        k < dur.length → att k = Outcome.sslError →
        retryLoop att rand ms (fuel + 1) k dur last = .raised ⟨none, .terminal⟩)
    ∧ (∀ (att : Nat → Outcome) (rand : Nat → ℚ) (ms : ℚ) (fuel k : Nat)
        (dur : List ℚ) (last : Option RemoteError),
        k < dur.length →
        (att k = Outcome.connectionError ∨ att k = Outcome.timeout
          ∨ att k = Outcome.checksumError) →
        retryLoop att rand ms (fuel + 1) k dur last =
          retryLoop att rand ms fuel (k + 1) dur (some ⟨none, .retriable⟩)) := by
  refine ⟨rfl, ?_, ⟨rfl, rfl⟩, ?_, ?_, ?_, ?_⟩
  · intro s h1 h2 h3 h4
    rw [extractHttpError, if_neg (by omega : ¬ s = 503), if_pos ⟨h2, h3, h4⟩]
  · intro s h1 h2 h3
    rw [extractHttpError, if_neg h3, if_neg]
    rintro ⟨h5, -, -⟩; omega
  · intro att rand ms fuel k dur last s hk hatt hmode
    rw [retryLoop_step att rand ms fuel k dur last hk, hatt]
    simp only [hmode]
  · intro att rand ms fuel k dur last hk hatt
    rw [retryLoop_step att rand ms fuel k dur last hk, hatt]
  · intro att rand ms fuel k dur last hk hatt
    rw [retryLoop_step att rand ms fuel k dur last hk]
    rcases hatt with h | h | h <;> rw [h]

/-- C4 witness: the amended taxonomy evaluated at concrete statuses and
concrete retry-loop states. -/
theorem retry_taxonomy_spec_witness :
    extractHttpError 503 = ⟨some 503, .retriableForever⟩
    ∧ extractHttpError 455 = ⟨some 455, .terminal⟩
    ∧ extractHttpError 404 = ⟨some 404, .retriable⟩
    ∧ extractHttpError 500 = ⟨some 500, .retriable⟩
    ∧ retryLoop (fun _ => .httpError 403) (fun _ => 0) 20 1 0 [0] none
        = .raised (extractHttpError 403)
    ∧ retryLoop (fun _ => .sslError) (fun _ => 0) 20 1 0 [0] none
        = .raised ⟨none, .terminal⟩
    ∧ retryLoop (fun _ => .timeout) (fun _ => 0) 20 1 0 [0] none
        = retryLoop (fun _ => .timeout) (fun _ => 0) 20 0 1 [0] (some ⟨none, .retriable⟩) := by
  obtain ⟨h1, h2, h3, h4, h5, h6, h7⟩ := retry_taxonomy_spec
  exact ⟨h1, h2 455 (by norm_num) (by norm_num) (by norm_num) (by norm_num), h3.1,
    h4 500 (by norm_num) (by norm_num) (by norm_num),
    h5 (fun _ => .httpError 403) (fun _ => 0) 20 0 0 [0] none 403 (by norm_num) rfl (by rfl),
    h6 (fun _ => .sslError) (fun _ => 0) 20 0 0 [0] none (by norm_num) rfl,
    h7 (fun _ => .timeout) (fun _ => 0) 20 0 0 [0] none (by norm_num) (Or.inr (Or.inl rfl))⟩

/-! ### A model of Python values

The values handled by the hook processor, the dotted-path accessor and the
persisted-value converter: `None`, booleans, integers, strings, lists,
string-keyed dicts (JSON mappings), `collections.deque` and
`datetime.datetime`.  Floats never reach these code paths with fractional
precision that matters and are not modelled.
-/

/-- Model of `datetime.datetime` (naive): the seven components.  Python 2
restricts `year` to `1..9999` and `strftime` further requires
`year >= 1900`; validity is a hypothesis of the round-trip theorem. -/
structure PyDateTime where
  year : Nat
  month : Nat
  day : Nat
  hour : Nat
  minute : Nat
  second : Nat
  microsecond : Nat
deriving DecidableEq, Repr

inductive PyVal where
  | none
  | bool (b : Bool)
  | int (n : Int)
  | str (s : String)
  | list (l : List PyVal)
  | dict (entries : List (String × PyVal))
  | deque (l : List PyVal)
  | datetime (d : PyDateTime)
deriving Repr

/-- Python truthiness (`bool(x)`): `None`, `False`, `0`, the empty string
and empty containers are falsy; a datetime is always truthy. -/
def truthy : PyVal → Bool
  | .none => false
  | .bool b => b
  | .int n => n != 0
  | .str s => s ≠ ""
  | .list l => !l.isEmpty
  | .dict e => !e.isEmpty
  | .deque l => !l.isEmpty
  | .datetime _ => true

mutual

/-- Python `==` on the modelled values: `True == 1` and `False == 0`
(bool is a subtype of int); lists and deques compare elementwise (and a
deque never equals a list, matching CPython); dicts compare as equal-size
key-to-value maps regardless of order; everything else compares by
constructor and payload. -/
def pyEq : PyVal → PyVal → Bool
  | .none, .none => true
  | .str a, .str b => a == b
  | .datetime a, .datetime b => a == b
  | .list a, .list b => pyEqList a b
  | .deque a, .deque b => pyEqList a b
  | .dict a, .dict b => a.length == b.length && pyDictSub a b
  | .int a, .int b => a == b
  | .int a, .bool b => a == (if b then 1 else 0)
  | .bool a, .int b => (if a then (1:Int) else 0) == b
  | .bool a, .bool b => a == b
  | _, _ => false

def pyEqList : List PyVal → List PyVal → Bool
  | [], [] => true
  | x :: xs, y :: ys => pyEq x y && pyEqList xs ys
  | _, _ => false

def pyDictSub : List (String × PyVal) → List (String × PyVal) → Bool
  | [], _ => true
  | (k, v) :: t, b =>
      (match alookup b k with
       | some w => pyEq v w
       | Option.none => false) && pyDictSub t b

end

/-! ### update_hooks.py - the hook trigger state machine -/

/-- A `Hook` as far as the trigger logic is concerned: the persistent-store
key is `name + "|" + path` and the trigger set drives the classification.
The action command and `runas` user only influence which subprocess is
spawned, which the model represents by its exit code. -/
structure Hook where
  name : String
  triggers : List String
  path : String

def hookKey (h : Hook) : String := h.name ++ "|" ++ h.path

/-- Model of `HookProcessor._process_hook` after the path data has been
retrieved: `shelf` is the persistent store (`shelve` values; a stored
Python `None` is `PyVal.none`, and `shelf.get(key, None)` conflates a
missing key with a stored `None`), `newData` the newly observed value and
`exitCode` the exit status of the action process.  Returns whether the
action fired together with the new store contents:

  * `post.add` fires when the old value is falsy and the new truthy;
  * `post.remove` fires when the old value is truthy and the new falsy;
  * `post.update` fires when both are truthy and they differ;
  * otherwise the new value is committed without running the action;
  * a fired action with exit 0 commits the new value; a non-zero exit
    leaves the store unchanged. -/
def oldDataOf (hook : Hook) (shelf : List (String × PyVal)) : PyVal :=
  (alookup shelf (hookKey hook)).getD .none

def processHook (hook : Hook) (shelf : List (String × PyVal)) (newData : PyVal)
    (exitCode : Int) : Bool × List (String × PyVal) :=
  if "post.add" ∈ hook.triggers ∧ truthy (oldDataOf hook shelf) = false
      ∧ truthy newData = true then
    if exitCode ≠ 0 then (true, shelf) else (true, alset shelf (hookKey hook) newData)
  else if "post.remove" ∈ hook.triggers ∧ truthy (oldDataOf hook shelf) = true
      ∧ truthy newData = false then
    if exitCode ≠ 0 then (true, shelf) else (true, alset shelf (hookKey hook) newData)
  else if "post.update" ∈ hook.triggers ∧ truthy (oldDataOf hook shelf) = true
      ∧ truthy newData = true ∧ pyEq (oldDataOf hook shelf) newData = false then
    if exitCode ≠ 0 then (true, shelf) else (true, alset shelf (hookKey hook) newData)
  else
    (false, alset shelf (hookKey hook) newData)

/-- Transition classification exactly as the specification words it: add
(`post.add` in the triggers, old falsy, new truthy), remove (`post.remove`,
old truthy, new falsy) or update (`post.update`, both truthy, values
differ). -/
def hookFireCondition (hook : Hook) (oldData newData : PyVal) : Prop :=
  ("post.add" ∈ hook.triggers ∧ truthy oldData = false ∧ truthy newData = true)
  ∨ ("post.remove" ∈ hook.triggers ∧ truthy oldData = true ∧ truthy newData = false)
  ∨ ("post.update" ∈ hook.triggers ∧ truthy oldData = true ∧ truthy newData = true
      ∧ pyEq oldData newData = false)

instance (hook : Hook) (oldData newData : PyVal) :
    Decidable (hookFireCondition hook oldData newData) := by
  unfold hookFireCondition; infer_instance

lemma processHook_eq (hook : Hook) (shelf : List (String × PyVal))
    (newData : PyVal) (exitCode : Int) :
    processHook hook shelf newData exitCode =
      (if hookFireCondition hook (oldDataOf hook shelf) newData
       then (if exitCode ≠ 0 then (true, shelf)
             else (true, alset shelf (hookKey hook) newData))
       else (false, alset shelf (hookKey hook) newData)) := by
  unfold processHook hookFireCondition
  by_cases h1 : "post.add" ∈ hook.triggers ∧ truthy (oldDataOf hook shelf) = false
      ∧ truthy newData = true
  · rw [if_pos h1, if_pos (Or.inl h1)]
  · rw [if_neg h1]
    by_cases h2 : "post.remove" ∈ hook.triggers ∧ truthy (oldDataOf hook shelf) = true
        ∧ truthy newData = false
    · rw [if_pos h2, if_pos (Or.inr (Or.inl h2))]
    · rw [if_neg h2]
      by_cases h3 : "post.update" ∈ hook.triggers ∧ truthy (oldDataOf hook shelf) = true
          ∧ truthy newData = true ∧ pyEq (oldDataOf hook shelf) newData = false
      · rw [if_pos h3, if_pos (Or.inr (Or.inr h3))]
      · rw [if_neg h3, if_neg (by tauto)]

/-- C3: for every hook processed in one poll, with `old` the persisted
value under key `name + "|" + path` and `new` the newly observed value,
the action fires exactly when one of the three trigger transitions
matches, and the store afterwards holds `new` except when the action
fired and exited non-zero, in which case the store is unchanged (so the
next poll sees the same `old`). -/
theorem hook_trigger_spec (hook : Hook) (shelf : List (String × PyVal))
    (newData : PyVal) (exitCode : Int) :
    ((processHook hook shelf newData exitCode).1 = true ↔
      hookFireCondition hook ((alookup shelf (hookKey hook)).getD .none) newData)
    ∧ (processHook hook shelf newData exitCode).2 =
        (if hookFireCondition hook ((alookup shelf (hookKey hook)).getD .none) newData
            ∧ exitCode ≠ 0
         then shelf
         else alset shelf (hookKey hook) newData) := by
  have hold : (alookup shelf (hookKey hook)).getD .none = oldDataOf hook shelf := rfl
  rw [hold, processHook_eq]
  by_cases hf : hookFireCondition hook (oldDataOf hook shelf) newData
  · by_cases he : exitCode = 0
    · simp [hf, he]
    · simp [hf, he]
  · simp [hf]

/-! ### util.py - extract_value, the dotted-path accessor

`extract_value` splits the path with the regex `(?<!\\)\.` (a dot not
preceded by a backslash), removes the escaping backslashes with
`\\(?=\.)` (a backslash followed by a dot) and walks the metadata with
Python `in` / `[]`.
-/

inductive PyErr where
  | typeError
  | keyError
  | valueError
deriving DecidableEq, Repr

def listPrefix : List Char → List Char → Bool
  | [], _ => true
  | _ :: _, [] => false
  | a :: x, b :: y => a = b && listPrefix x y

def listInfix (needle : List Char) : List Char → Bool
  | [] => listPrefix needle []
  | c :: t => listPrefix needle (c :: t) || listInfix needle t

/-- Python `element in container` for a string `element`: key membership
for a dict, `==`-membership for a list or deque, substring test for a
string; `in` on `None`, numbers, booleans and datetimes raises TypeError. -/
def pyContains : PyVal → String → Except PyErr Bool
  | .dict entries, k => .ok ((alookup entries k).isSome)
  | .list l, k => .ok (l.any (fun v => pyEq (.str k) v))
  | .deque l, k => .ok (l.any (fun v => pyEq (.str k) v))
  | .str s, k => .ok (listInfix k.toList s.toList)
  | _, _ => .error .typeError

/-- Python `container[element]` for a string `element`: dict lookup;
subscripting a list or string with a string raises TypeError. -/
def pyIndex : PyVal → String → Except PyErr PyVal
  | .dict entries, k =>
      match alookup entries k with
      | some v => .ok v
      | Option.none => .error .keyError
  | _, _ => .error .typeError

/-- The loop of `extract_value` over the already-split-and-unescaped path
elements: a missing element returns `None`, otherwise descend. -/
def extractValueGo : PyVal → List String → Except PyErr (Option PyVal)
  | v, [] => .ok (some v)
  | v, e :: rest =>
    match pyContains v e with
    | .error er => .error er
    | .ok false => .ok Option.none
    | .ok true =>
      match pyIndex v e with
      | .error er => .error er
      | .ok v2 => extractValueGo v2 rest

/-- Split on every dot whose preceding character is not a backslash
(`re.split` with pattern `(?<!\\)\.`); `prev` carries the previously
scanned character for the lookbehind. -/
def splitUnescapedGo : Option Char → List Char → List (List Char)
  | _, [] => [[]]
  | prev, c :: rest =>
    if c = '.' ∧ prev ≠ some '\\' then
      [] :: splitUnescapedGo (some c) rest
    else
      match splitUnescapedGo (some c) rest with
      | [] => [[c]]
      | h :: t => (c :: h) :: t

def splitUnescaped (s : String) : List (List Char) :=
  splitUnescapedGo Option.none s.toList

/-- Remove every backslash that is immediately followed by a dot
(`re.sub` with pattern `\\(?=\.)`; the dot is kept since the lookahead
does not consume it). -/
def removeEscapes : List Char → List Char
  | '\\' :: '.' :: rest => '.' :: removeEscapes rest
  | c :: rest => c :: removeEscapes rest
  | [] => []

/-- Model of `util.extract_value`: an empty path returns the metadata
itself; otherwise split on unescaped dots, unescape each element and walk. -/
def extractValue (metadata : PyVal) (path : String) : Except PyErr (Option PyVal) :=
  if path = "" then .ok (some metadata)
  else extractValueGo metadata
    ((splitUnescaped path).map (fun l => String.mk (removeEscapes l)))

/-- Specification-side escaping of a single key: put a backslash before
every dot. -/
def escChars : List Char → List Char
  | [] => []
  | c :: t => if c = '.' then '\\' :: '.' :: escChars t else c :: escChars t

def escapeKey (s : String) : String := String.mk (escChars s.toList)

/-- Specification-side dotted path built from escaped keys joined with
unescaped dots. -/
def joinEscapedChars : List String → List Char
  | [] => []
  | [k] => escChars k.toList
  | k :: k2 :: t => escChars k.toList ++ '.' :: joinEscapedChars (k2 :: t)

def joinEscapedPath (ks : List String) : String := String.mk (joinEscapedChars ks)

lemma mk_toList (s : String) : String.mk s.toList = s := by
  cases s; rfl

lemma toList_ne_nil (s : String) (h : s ≠ "") : s.toList ≠ [] := by
  intro hc
  apply h
  cases s with
  | mk data => simpa [String.toList, String.data] using congrArg String.mk hc

lemma splitUnescapedGo_ne_nil (prev : Option Char) (l : List Char) :
    splitUnescapedGo prev l ≠ [] := by
  induction l generalizing prev with
  | nil => simp [splitUnescapedGo]
  | cons c rest ih =>
    rw [splitUnescapedGo]
    split_ifs
    · simp
    · cases h : splitUnescapedGo (some c) rest with
      | nil => simp
      | cons a b => simp

def consHead (pre : List Char) : List (List Char) → List (List Char)
  | [] => [pre]
  | h :: t => (pre ++ h) :: t

lemma consHead_append (a b : List Char) (x : List (List Char)) :
    consHead a (consHead b x) = consHead (a ++ b) x := by
  cases x <;> simp [consHead]

lemma splitUnescapedGo_cons_nosplit (prev : Option Char) (c : Char) (l : List Char)
    (h : ¬ (c = '.' ∧ prev ≠ some '\\')) :
    splitUnescapedGo prev (c :: l) = consHead [c] (splitUnescapedGo (some c) l) := by
  rw [splitUnescapedGo, if_neg h]
  cases hs : splitUnescapedGo (some c) l with
  | nil => exact absurd hs (splitUnescapedGo_ne_nil _ _)
  | cons a b => simp [consHead]

lemma splitUnescapedGo_escChars (k : List Char) (hbs : '\\' ∉ k) (hne : k ≠ []) :
    ∀ (prev : Option Char) (rest : List Char),
    ∃ c, c ≠ '\\' ∧
      splitUnescapedGo prev (escChars k ++ rest) =
        consHead (escChars k) (splitUnescapedGo (some c) rest) := by
  induction k with
  | nil => exact absurd rfl hne
  | cons c0 t ih =>
    intro prev rest
    by_cases hc0 : c0 = '.'
    · subst hc0
      have hesc : escChars ('.' :: t) = '\\' :: '.' :: escChars t := by
        simp [escChars]
      rw [hesc]
      cases ht : decide (t = []) with
      | true =>
        have ht' : t = [] := of_decide_eq_true ht
        subst ht'
        refine ⟨'.', by decide, ?_⟩
        rw [List.cons_append, List.cons_append,
          splitUnescapedGo_cons_nosplit prev '\\' _ (by simp),
          splitUnescapedGo_cons_nosplit (some '\\') '.' _ (by simp)]
        simp [escChars, consHead_append]
      | false =>
        have ht' : t ≠ [] := of_decide_eq_false ht
        obtain ⟨c, hc, heq⟩ := ih (fun hmem => hbs (List.mem_cons_of_mem _ hmem)) ht'
          (some '.') rest
        refine ⟨c, hc, ?_⟩
        rw [List.cons_append, List.cons_append,
          splitUnescapedGo_cons_nosplit prev '\\' _ (by simp),
          splitUnescapedGo_cons_nosplit (some '\\') '.' _ (by simp),
          heq, consHead_append, consHead_append]
        simp
    · have hcbs : c0 ≠ '\\' := by
        intro hc; exact hbs (hc ▸ List.mem_cons_self c0 t)
      have hesc : escChars (c0 :: t) = c0 :: escChars t := by
        simp [escChars, hc0]
      rw [hesc]
      cases ht : decide (t = []) with
      | true =>
        have ht' : t = [] := of_decide_eq_true ht
        subst ht'
        refine ⟨c0, hcbs, ?_⟩
        rw [List.cons_append,
          splitUnescapedGo_cons_nosplit prev c0 _ (by tauto)]
        simp [escChars]
      | false =>
        have ht' : t ≠ [] := of_decide_eq_false ht
        obtain ⟨c, hc, heq⟩ := ih (fun hmem => hbs (List.mem_cons_of_mem _ hmem)) ht'
          (some c0) rest
        refine ⟨c, hc, ?_⟩
        rw [List.cons_append,
          splitUnescapedGo_cons_nosplit prev c0 _ (by tauto), heq, consHead_append]
        simp

lemma splitUnescapedGo_join (ks : List String) (hne : ks ≠ [])
    (hks : ∀ k ∈ ks, k ≠ "" ∧ '\\' ∉ k.toList) :
    ∀ (prev : Option Char), prev ≠ some '\\' →
    splitUnescapedGo prev (joinEscapedChars ks) = ks.map (fun k => escChars k.toList) := by
  induction ks with
  | nil => exact absurd rfl hne
  | cons k t ih =>
    intro prev hprev
    obtain ⟨hk1, hk2⟩ := hks k (List.mem_cons_self k t)
    cases t with
    | nil =>
      obtain ⟨c, hc, heq⟩ :=
        splitUnescapedGo_escChars k.toList hk2 (toList_ne_nil k hk1) prev []
      rw [List.append_nil] at heq
      rw [joinEscapedChars, heq]
      simp [splitUnescapedGo, consHead]
    | cons k2 t2 =>
      obtain ⟨c, hc, heq⟩ :=
        splitUnescapedGo_escChars k.toList hk2 (toList_ne_nil k hk1) prev
          ('.' :: joinEscapedChars (k2 :: t2))
      rw [joinEscapedChars, heq]
      have hsplit : splitUnescapedGo (some c) ('.' :: joinEscapedChars (k2 :: t2))
          = [] :: splitUnescapedGo (some '.') (joinEscapedChars (k2 :: t2)) := by
        rw [splitUnescapedGo, if_pos]
        constructor
        · rfl
        · intro hc2; exact hc (Option.some.inj hc2)
      rw [hsplit, ih (by simp) (fun x hx => hks x (List.mem_cons_of_mem _ hx))
        (some '.') (by simp)]
      simp [consHead]

lemma removeEscapes_cons (c : Char) (l : List Char) (hc : c ≠ '\\') :
    removeEscapes (c :: l) = c :: removeEscapes l := by
  rw [removeEscapes.eq_def]
  split
  · next heq => rw [List.cons.injEq] at heq; exact absurd heq.1 hc
  · next heq => rw [List.cons.injEq] at heq; rw [heq.1, heq.2]
  · next heq => exact absurd heq (List.cons_ne_nil c l)

lemma removeEscapes_escChars (k : List Char) (hbs : '\\' ∉ k) :
    removeEscapes (escChars k) = k := by
  induction k with
  | nil => rfl
  | cons c t ih =>
    have ht : '\\' ∉ t := fun hmem => hbs (List.mem_cons_of_mem _ hmem)
    by_cases hc : c = '.'
    · subst hc
      have : escChars ('.' :: t) = '\\' :: '.' :: escChars t := by simp [escChars]
      rw [this, removeEscapes, ih ht]
    · have : escChars (c :: t) = c :: escChars t := by simp [escChars, hc]
      have hcbs : c ≠ '\\' := fun h => hbs (h ▸ List.mem_cons_self c t)
      rw [this, removeEscapes_cons c _ hcbs, ih ht]

lemma escChars_ne_nil (k : List Char) (h : k ≠ []) : escChars k ≠ [] := by
  cases k with
  | nil => exact absurd rfl h
  | cons c t =>
    rw [escChars]
    split_ifs <;> simp

lemma joinEscapedChars_ne_nil (k : String) (t : List String) (hk : k ≠ "") :
    joinEscapedChars (k :: t) ≠ [] := by
  cases t with
  | nil => exact escChars_ne_nil k.toList (toList_ne_nil k hk)
  | cons k2 t2 =>
    rw [joinEscapedChars]
    intro hc
    rcases List.append_eq_nil.1 hc with ⟨-, h2⟩
    exact List.cons_ne_nil _ _ h2

/-- C8: the dotted-path accessor splits only on unescaped dots, a
backslash-escaped dot is a literal dot inside a key, and a missing
intermediate key yields `None`.  Conjunct 1: for any keys without
backslashes, the path built by escaping each key and joining with dots is
traversed exactly as that key chain.  Conjunct 2: in particular a single
key that may contain literal dots resolves, once escaped, to that key of
the mapping (or `None` when absent).  Conjunct 3: a missing intermediate
key returns `None`. -/
theorem extract_value_escaping_spec :
    (∀ (ks : List String) (m : PyVal), ks ≠ [] →
      (∀ k ∈ ks, k ≠ "" ∧ '\\' ∉ k.toList) →
      extractValue m (joinEscapedPath ks) = extractValueGo m ks)
    ∧ (∀ (entries : List (String × PyVal)) (k : String), k ≠ "" → '\\' ∉ k.toList →
      extractValue (.dict entries) (escapeKey k) = .ok (alookup entries k))
    ∧ (∀ (entries : List (String × PyVal)) (k : String) (rest : List String),
      alookup entries k = Option.none →
      extractValueGo (.dict entries) (k :: rest) = .ok Option.none) := by
  have hmain : ∀ (ks : List String) (m : PyVal), ks ≠ [] →
      (∀ k ∈ ks, k ≠ "" ∧ '\\' ∉ k.toList) →
      extractValue m (joinEscapedPath ks) = extractValueGo m ks := by
    intro ks m hne hks
    unfold extractValue joinEscapedPath
    obtain ⟨k, t, rfl⟩ : ∃ k t, ks = k :: t := by
      cases ks with
      | nil => exact absurd rfl hne
      | cons k t => exact ⟨k, t, rfl⟩
    rw [if_neg (by
      intro hc
      exact joinEscapedChars_ne_nil k t (hks k (List.mem_cons_self k t)).1
        (by simpa [String.toList] using congrArg String.toList hc))]
    have hsplit : splitUnescaped (String.mk (joinEscapedChars (k :: t)))
        = (k :: t).map (fun x => escChars x.toList) := by
      unfold splitUnescaped
      rw [show (String.mk (joinEscapedChars (k :: t))).toList = joinEscapedChars (k :: t)
        from rfl]
      exact splitUnescapedGo_join (k :: t) hne hks Option.none (by simp)
    rw [hsplit, List.map_map]
    congr 1
    have : ∀ x ∈ (k :: t), (fun l => String.mk (removeEscapes l))
        ((fun x => escChars x.toList) x) = x := by
      intro x hx
      simp only [Function.comp]
      rw [removeEscapes_escChars x.toList (hks x hx).2, mk_toList]
    calc (k :: t).map ((fun l => String.mk (removeEscapes l)) ∘ (fun x => escChars x.toList))
        = (k :: t).map id := List.map_congr_left this
      _ = k :: t := List.map_id _
  refine ⟨hmain, ?_, ?_⟩
  · intro entries k hk1 hk2
    have h1 : escapeKey k = joinEscapedPath [k] := rfl
    rw [h1, hmain [k] (.dict entries) (by simp) (by simpa using ⟨hk1, hk2⟩)]
    cases hlk : alookup entries k with
    | none => simp [extractValueGo, pyContains, hlk]
    | some v => simp [extractValueGo, pyContains, pyIndex, hlk]
  · intro entries k rest hlk
    simp [extractValueGo, pyContains, hlk]

/-- C8 witness: a mapping whose key literally contains a dot is reachable
through the backslash-escaped path, and a missing key yields `None`. -/
theorem extract_value_escaping_spec_witness :
    extractValue (.dict [("a.b", PyVal.int 7)]) (escapeKey "a.b")
      = .ok (alookup [("a.b", PyVal.int 7)] "a.b")
    ∧ extractValueGo (.dict []) ["x"] = .ok Option.none := by
  refine ⟨extract_value_escaping_spec.2.1 [("a.b", PyVal.int 7)] "a.b" (by decide) ?_,
    extract_value_escaping_spec.2.2 [] "x" [] rfl⟩
  decide

/-! ### util.py / auth.py - URL recognition and signers

`is_s3_url` applies `re.match` with the pattern
`https?://([-\w.]+?\.)?s3(-[\w\d-]+)?.amazonaws.com.*` (IGNORECASE; note
the unescaped dots before `amazonaws` and `com`, which match any
character).  The matchers below decide existence of a match of that fixed
pattern directly: `\w` is `[A-Za-z0-9_]` (no `re.UNICODE`), `.` is any
character except a newline, and matching is made case-insensitive by
lowercasing the subject (the character classes are closed under case).
-/

def wordChar (c : Char) : Bool := c.isAlphanum || c = '_'

/-- The class `[-\w.]` of the optional leading group. -/
def classA (c : Char) : Bool := wordChar c || c = '-' || c = '.'

/-- The class `[\w\d-]` of the optional `-region` group. -/
def classB (c : Char) : Bool := wordChar c || c = '-'

/-- Matches `.amazonaws.com.*`: one arbitrary non-newline character, the
literal `amazonaws`, one arbitrary non-newline character, the literal
`com`, then anything. -/
def fixedTail (l : List Char) : Bool :=
  match l with
  | c :: rest =>
    c ≠ '\n' && "amazonaws".toList.isPrefixOf rest &&
      (match rest.drop 9 with
       | c2 :: rest2 => c2 ≠ '\n' && "com".toList.isPrefixOf rest2
       | [] => false)
  | [] => false

/-- Matches `[\w\d-]+` followed by `fixedTail` (at least one class
character already committed to the group). -/
def bPlusTail : List Char → Bool
  | [] => false
  | c :: t => classB c && (fixedTail t || bPlusTail t)

/-- Matches `(-[\w\d-]+)?` followed by `fixedTail`. -/
def tailAfterS3 (l : List Char) : Bool :=
  fixedTail l ||
    (match l with
     | '-' :: t => bPlusTail t
     | _ => false)

/-- Matches the literal `s3` followed by `tailAfterS3`. -/
def s3Then (l : List Char) : Bool :=
  match l with
  | 's' :: '3' :: rest => tailAfterS3 rest
  | _ => false

/-- Inside the optional group `([-\w.]+?\.)`, after at least one class
character has been consumed: either the current character is the closing
literal dot and the rest matches from `s3`, or it is another class
character and the group continues. -/
def scanA : List Char → Bool
  | [] => false
  | c :: t => (c = '.' && s3Then t) || (classA c && scanA t)

/-- Matches `[-\w.]+?\.` followed by `s3` and the tail. -/
def aPlusThen : List Char → Bool
  | [] => false
  | c :: t => classA c && scanA t

def afterScheme (l : List Char) : Bool := s3Then l || aPlusThen l

/-- Model of `util.is_s3_url`: does the lowercased URL match the S3 host
pattern from its start. -/
def isS3Url (url : String) : Bool :=
  match url.toList.map Char.toLower with
  | 'h' :: 't' :: 't' :: 'p' :: rest =>
    (match rest with
     | 's' :: ':' :: '/' :: '/' :: rest2 => afterScheme rest2
     | ':' :: '/' :: '/' :: rest2 => afterScheme rest2
     | _ => false)
  | _ => false

/-! ### util.py - EtagCheckedResponse -/

/-- An HTTP response as the checker sees it: final URL, status, headers
and the body bytes (a Python 2 `str`). -/
structure HttpResponse where
  url : String
  statusCode : Nat
  headers : List (String × String)
  body : String

/-- Header lookup in a `requests` case-insensitive header dict. -/
def headerGet : List (String × String) → String → Option String
  | [], _ => Option.none
  | (h, v) :: t, k =>
      if h.toList.map Char.toLower = k.toList.map Char.toLower then some v
      else headerGet t k

/-- Python `str.strip(c)`: remove every leading and trailing occurrence of
the character. -/
def stripChar (c : Char) (s : String) : String :=
  String.mk (((s.toList.dropWhile (· = c)).reverse.dropWhile (· = c)).reverse)

/-- The etag retained by `EtagCheckedResponse.__init__`: present only when
the response has an `etag` header and the URL is an S3 URL; stripped of
double quotes; discarded again when it is nonempty and contains a `-`
(multipart upload).  An etag that strips to the empty string is kept but,
being falsy, never causes a digest check. -/
def etagOf (resp : HttpResponse) : Option String :=
  if (headerGet resp.headers "etag").isSome = true ∧ isS3Url resp.url = true then
    match headerGet resp.headers "etag" with
    | some raw =>
        if stripChar '"' raw ≠ "" ∧ '-' ∈ (stripChar '"' raw).toList then Option.none
        else some (stripChar '"' raw)
    | Option.none => Option.none
  else Option.none

inductive FetchErr where
  | httpError (status : Nat)
  | checksumError (expected actual : String)
deriving DecidableEq, Repr

/-- Model of `EtagCheckedResponse(resp).contents()`: `check_status`
(`raise_for_status`) rejects 4xx/5xx first; then the body is digested with
MD5 exactly when the retained etag is truthy, and a final digest different
from the etag raises `ChecksumError`.  The MD5 implementation lives in
`hashlib` and is modelled as the function parameter `md5hex` from body
bytes to hex digest. -/
def etagCheckedContents (md5hex : String → String) (resp : HttpResponse) :
    Except FetchErr String :=
  if 400 ≤ resp.statusCode ∧ resp.statusCode < 600 then .error (.httpError resp.statusCode)
  else
    match etagOf resp with
    | some e =>
        if e ≠ "" then
          if e ≠ md5hex resp.body then .error (.checksumError e (md5hex resp.body))
          else .ok resp.body
        else .ok resp.body
    | Option.none => .ok resp.body

/-- C7 counterexample: a 200 response from an S3 URL carrying the ETag
header value consisting of two double quotes (no `-` in it).  The claim
requires a ChecksumError whenever the digest differs from the stripped
etag, and any hex digest differs from the empty stripped etag; but the
code treats the empty stripped etag as falsy and performs no check at
all, returning the body. -/
theorem etag_empty_counterexample :
    isS3Url "https://bucket.s3.amazonaws.com/key" = true
    ∧ headerGet [("ETag", "\"\"")] "etag" = some "\"\""
    ∧ ¬ '-' ∈ ("\"\"").toList
    ∧ stripChar '"' "\"\"" ≠ "abc"
    ∧ etagCheckedContents (fun _ => "abc")
        ⟨"https://bucket.s3.amazonaws.com/key", 200, [("ETag", "\"\"")], "body"⟩
        = .ok "body" := by
  refine ⟨by decide, by decide, by decide, by decide, by rfl⟩

/-- C7 (amended): for a non-error response whose URL matches the S3 host
pattern and that carries an ETag which, stripped of surrounding quotes, is
nonempty and contains no `-`, the body is digested with MD5 and
`ChecksumError` is raised if and only if the hex digest differs from the
stripped ETag.  Responses from non-S3 URLs, responses without an ETag,
ETags containing `-`, and ETags that strip to the empty string are never
checksum-checked. -/
theorem etag_check_spec :
    (∀ (md5hex : String → String) (resp : HttpResponse) (e : String),
      ¬ (400 ≤ resp.statusCode ∧ resp.statusCode < 600) →
      etagOf resp = some e → e ≠ "" →
      etagCheckedContents md5hex resp =
        (if e ≠ md5hex resp.body then .error (.checksumError e (md5hex resp.body))
         else .ok resp.body))
    ∧ (∀ (raw : String) (resp : HttpResponse),
        headerGet resp.headers "etag" = some raw → isS3Url resp.url = true →
        stripChar '"' raw ≠ "" → ¬ '-' ∈ (stripChar '"' raw).toList →
        etagOf resp = some (stripChar '"' raw))
    ∧ (∀ (md5hex : String → String) (resp : HttpResponse),
        ¬ (400 ≤ resp.statusCode ∧ resp.statusCode < 600) →
        etagOf resp = Option.none →
        etagCheckedContents md5hex resp = .ok resp.body)
    ∧ (∀ resp : HttpResponse, isS3Url resp.url = false → etagOf resp = Option.none)
    ∧ (∀ resp : HttpResponse, headerGet resp.headers "etag" = Option.none →
        etagOf resp = Option.none)
    ∧ (∀ (raw : String) (resp : HttpResponse),
        headerGet resp.headers "etag" = some raw →
        stripChar '"' raw ≠ "" → '-' ∈ (stripChar '"' raw).toList →
        etagOf resp = Option.none) := by
  refine ⟨?_, ?_, ?_, ?_, ?_, ?_⟩
  · intro md5hex resp e hst he hne
    unfold etagCheckedContents
    rw [if_neg hst, he]
    simp [hne]
  · intro raw resp hraw hs3 hne hdash
    unfold etagOf
    rw [if_pos ⟨by rw [hraw]; rfl, hs3⟩, hraw]
    simp [hdash]
    exact fun _ => hdash
  · intro md5hex resp hst he
    unfold etagCheckedContents
    rw [if_neg hst, he]
  · intro resp hs3
    unfold etagOf
    rw [if_neg]
    rintro ⟨-, h2⟩
    rw [hs3] at h2
    cases h2
  · intro resp hraw
    unfold etagOf
    rw [if_neg]
    rintro ⟨h1, -⟩
    rw [hraw] at h1
    cases h1
  · intro raw resp hraw hne hdash
    unfold etagOf
    by_cases hs3 : isS3Url resp.url = true
    · rw [if_pos ⟨by rw [hraw]; rfl, hs3⟩, hraw]
      simp [hne, hdash]
      exact hdash
    · rw [if_neg (by tauto)]

/-- C7 witness: the amended checking rules evaluated on concrete
responses: a matching digest, a mismatching digest, and a non-S3 URL. -/
theorem etag_check_spec_witness :
    etagCheckedContents (fun _ => "d41d8cd98f")
        ⟨"https://bucket.s3.amazonaws.com/key", 200, [("ETag", "\"d41d8cd98f\"")], "body"⟩
      = .ok "body"
    ∧ etagCheckedContents (fun _ => "ffff")
        ⟨"https://bucket.s3.amazonaws.com/key", 200, [("ETag", "\"d41d8cd98f\"")], "body"⟩
      = .error (.checksumError "d41d8cd98f" "ffff")
    ∧ etagOf ⟨"https://example.com/key", 200, [("ETag", "\"d41d8cd98f\"")], "body"⟩
      = Option.none := by
  have h2 := etag_check_spec.2.1 "\"d41d8cd98f\""
    ⟨"https://bucket.s3.amazonaws.com/key", 200, [("ETag", "\"d41d8cd98f\"")], "body"⟩
    (by decide) (by decide) (by decide) (by decide)
  refine ⟨?_, ?_, ?_⟩
  · have h1 := etag_check_spec.1 (fun _ => "d41d8cd98f")
      ⟨"https://bucket.s3.amazonaws.com/key", 200, [("ETag", "\"d41d8cd98f\"")], "body"⟩
      (stripChar '"' "\"d41d8cd98f\"") (by decide) h2 (by decide)
    rw [h1]
    rfl
  · have h1 := etag_check_spec.1 (fun _ => "ffff")
      ⟨"https://bucket.s3.amazonaws.com/key", 200, [("ETag", "\"d41d8cd98f\"")], "body"⟩
      (stripChar '"' "\"d41d8cd98f\"") (by decide) h2 (by decide)
    rw [h1]
    rfl
  · exact etag_check_spec.2.2.2.1
      ⟨"https://example.com/key", 200, [("ETag", "\"d41d8cd98f\"")], "body"⟩ (by decide)

/-! ### auth.py - the default composite signer

`urlparse` is modelled for absolute URLs (as all request URLs here are):
the netloc is what follows the first `://` up to the first `/`, `?` or
`#`, and the path what follows the netloc up to `?` or `#`.  A signer
(`AuthBase` instance) is a function from request to request.  The bucket
extraction regex `^([-\w.]+?\.)?s3(-[\w\d-]+)?.amazonaws.com$` is decided
with the group-present alternative attempted before the group-absent one
and the lazy `+?` expanding shortest-first, matching the `re` engine.
-/

structure Request where
  url : String
  headers : List (String × String)
deriving Repr

def afterSchemeChars : List Char → Option (List Char)
  | ':' :: '/' :: '/' :: rest => some rest
  | _ :: t => afterSchemeChars t
  | [] => Option.none

def netlocOf (url : String) : String :=
  match afterSchemeChars url.toList with
  | some rest => String.mk (rest.takeWhile (fun c => c ≠ '/' ∧ c ≠ '?' ∧ c ≠ '#'))
  | Option.none => ""

def pathOf (url : String) : String :=
  match afterSchemeChars url.toList with
  | some rest =>
      String.mk (((rest.dropWhile (fun c => c ≠ '/' ∧ c ≠ '?' ∧ c ≠ '#')).takeWhile
        (fun c => c ≠ '?' ∧ c ≠ '#')))
  | Option.none => url

/-- Consume a literal (given in lowercase) case-insensitively, returning
the remainder on success. -/
def ciPrefix : List Char → List Char → Option (List Char)
  | [], l => some l
  | _ :: _, [] => Option.none
  | a :: x, b :: y => if b.toLower = a then ciPrefix x y else Option.none

/-- Anchored match of `.amazonaws.com$` (dots are any non-newline
character). -/
def anchoredFixed (l : List Char) : Bool :=
  match l with
  | c :: rest =>
      c ≠ '\n' &&
        (match ciPrefix "amazonaws".toList rest with
         | some (c2 :: rest2) =>
             c2 ≠ '\n' &&
               (match ciPrefix "com".toList rest2 with
                | some [] => true
                | _ => false)
         | _ => false)
  | [] => false

def anchoredBPlus : List Char → Bool
  | [] => false
  | c :: t => classB c && (anchoredFixed t || anchoredBPlus t)

/-- Anchored match of `(-[\w\d-]+)?.amazonaws.com$`. -/
def anchoredTail (l : List Char) : Bool :=
  anchoredFixed l ||
    (match l with
     | '-' :: t => anchoredBPlus t
     | _ => false)

/-- Anchored match of `s3(-[\w\d-]+)?.amazonaws.com$`. -/
def anchoredS3Then (l : List Char) : Bool :=
  match ciPrefix "s3".toList l with
  | some rest => anchoredTail rest
  | Option.none => false

/-- Search for the lazy group `([-\w.]+?\.)`: scan class characters,
trying to close the group at each dot (shortest first, as the `re` engine
backtracks); `acc` holds the reversed consumed characters. -/
def findGroupA (acc : List Char) : List Char → Option (List Char)
  | [] => Option.none
  | c :: t =>
      if classA c then
        if c = '.' ∧ acc ≠ [] ∧ anchoredS3Then t then some ((c :: acc).reverse)
        else findGroupA (c :: acc) t
      else Option.none

/-- Model of `S3DefaultAuth._extract_bucket`: match the netloc against the
anchored S3 host pattern; a participating first group (subdomain-style
URL) yields the group stripped of trailing dots, otherwise the bucket is
the first path segment (path-style URL); no match means no bucket. -/
def extractBucket (url : String) : Option String :=
  match findGroupA [] (netlocOf url).toList with
  | some g => some (String.mk ((g.reverse.dropWhile (· = '.')).reverse))
  | Option.none =>
      if anchoredS3Then (netlocOf url).toList then
        some (String.mk (((pathOf url).toList.drop 1).takeWhile (· ≠ '/')))
      else Option.none

/-- Model of `S3DefaultAuth.__call__`: sign only when a nonempty bucket
was extracted and is registered. -/
def s3DefaultAuthCall (bucketToAuth : List (String × (Request → Request)))
    (req : Request) : Request :=
  match extractBucket req.url with
  | some b =>
      if b ≠ "" then
        match alookup bucketToAuth b with
        | some auth => auth req
        | Option.none => req
      else req
  | Option.none => req

/-- Model of `BasicDefaultAuth.__call__`: sign only when the netloc is
registered. -/
def basicDefaultAuthCall (auths : List (String × (Request → Request)))
    (req : Request) : Request :=
  match alookup auths (netlocOf req.url) with
  | some auth => auth req
  | Option.none => req

/-- Model of `DefaultAuth.__call__`: basic default first, then S3 default. -/
def defaultAuthCall (s3 basic : List (String × (Request → Request)))
    (req : Request) : Request :=
  s3DefaultAuthCall s3 (basicDefaultAuthCall basic req)

/-- C10: a request whose URL yields no registered nonempty S3 bucket and
whose host is not registered with the Basic default signer passes through
the composite default signer completely unchanged - the very same request,
so no Authorization or any other header is added. -/
theorem default_auth_unregistered_unchanged
    (s3m basicm : List (String × (Request → Request))) (req : Request)
    (hs3 : ∀ b, extractBucket req.url = some b → b ≠ "" → alookup s3m b = Option.none)
    (hbasic : alookup basicm (netlocOf req.url) = Option.none) :
    defaultAuthCall s3m basicm req = req := by
  unfold defaultAuthCall basicDefaultAuthCall
  rw [hbasic]
  unfold s3DefaultAuthCall
  cases hb : extractBucket req.url with
  | none => rfl
  | some b =>
    by_cases hbe : b = ""
    · simp [hbe]
    · simp [hbe, hs3 b hb hbe]

/-- C10 witness: with a bucket-keyed S3 signer and a host-keyed Basic
signer registered, a request to an unrelated host is returned unchanged
even though both signers would add an Authorization header if invoked. -/
theorem default_auth_unregistered_unchanged_witness :
    defaultAuthCall
      [("mybucket", fun r => ⟨r.url, ("Authorization", "AWS k:sig") :: r.headers⟩)]
      [("internal.example.com", fun r => ⟨r.url, ("Authorization", "Basic Zm9v") :: r.headers⟩)]
      ⟨"https://other.example.com/data.tgz", []⟩
    = ⟨"https://other.example.com/data.tgz", []⟩ := by
  apply default_auth_unregistered_unchanged
  · intro b hb hbe
    rw [show extractBucket "https://other.example.com/data.tgz" = Option.none from by decide]
      at hb
    cases hb
  · rfl

/-! ### sources_tool.py - the archive member path check

The check runs on POSIX (`os.path` is `posixpath`, `os.path.normcase` is
the identity there).  `normpath`, `join`, `abspath` and the character-wise
`commonprefix` are translated from `posixpath`; `abspath` takes the
working directory as an explicit argument.  Extraction targets are
modelled as `normpath(join(dest, member))`: `tarfile.extractall` joins the
destination with each member name and the filesystem resolves the
dot-dot segments (no symlinks assumed).
-/

def exceptDecEq {ε α : Type} [DecidableEq ε] [DecidableEq α] (x y : Except ε α) :
    Decidable (x = y) :=
  match x, y with
  | .ok a, .ok b =>
      if h : a = b then .isTrue (by rw [h]) else .isFalse (fun hc => h (Except.ok.inj hc))
  | .error a, .error b =>
      if h : a = b then .isTrue (by rw [h]) else .isFalse (fun hc => h (Except.error.inj hc))
  | .ok _, .error _ => .isFalse (fun hc => Except.noConfusion hc)
  | .error _, .ok _ => .isFalse (fun hc => Except.noConfusion hc)

instance {ε α : Type} [DecidableEq ε] [DecidableEq α] : DecidableEq (Except ε α) :=
  exceptDecEq

/-- posixpath.isabs. -/
def isabs (p : String) : Bool := listPrefix ['/'] p.toList

/-- posixpath.join for two components. -/
def pjoin (a b : String) : String :=
  if isabs b then b
  else if a = "" ∨ listPrefix ['/'] a.toList.reverse then a ++ b
  else a ++ "/" ++ b

/-- str.split(sep) for a single separator character. -/
def splitChar (sep : Char) : List Char → List (List Char)
  | [] => [[]]
  | c :: t =>
      if c = sep then [] :: splitChar sep t
      else
        match splitChar sep t with
        | [] => [[c]]
        | h :: t2 => (c :: h) :: t2

/-- sep.join(comps) for the single separator `/`. -/
def joinComps : List (List Char) → List Char
  | [] => []
  | [c] => c
  | c :: c2 :: t => c ++ '/' :: joinComps (c2 :: t)

/-- One step of the component fold inside `posixpath.normpath`. -/
def normpathStep (initialSlashes : Nat) (acc : List (List Char)) (comp : List Char) :
    List (List Char) :=
  if comp = [] ∨ comp = ['.'] then acc
  else if comp ≠ ['.', '.'] ∨ (initialSlashes = 0 ∧ acc = [])
      ∨ acc.getLast? = some ['.', '.'] then
    acc ++ [comp]
  else if acc ≠ [] then acc.dropLast
  else acc

/-- posixpath.normpath: collapse `.`, empty and `..` components; POSIX
keeps exactly two leading slashes when the path starts with `//` but not
`///`. -/
def normpath (p : String) : String :=
  if p = "" then "." else
  let cs := p.toList
  let initialSlashes : Nat :=
    if listPrefix ['/'] cs then
      (if listPrefix ['/', '/'] cs ∧ ¬ listPrefix ['/', '/', '/'] cs then 2 else 1)
    else 0
  let newComps := (splitChar '/' cs).foldl (normpathStep initialSlashes) []
  let out := List.replicate initialSlashes '/' ++ joinComps newComps
  if out = [] then "." else String.mk out

/-- os.path.commonprefix compares character by character; it is a string
prefix, not a path-component prefix. -/
def commonprefixChars : List Char → List Char → List Char
  | a :: x, b :: y => if a = b then a :: commonprefixChars x y else []
  | _, _ => []

def commonprefix (a b : String) : String :=
  String.mk (commonprefixChars a.toList b.toList)

/-- posixpath.abspath with the working directory explicit. -/
def abspath (cwd p : String) : String := normpath (if isabs p then p else pjoin cwd p)

/-- The per-member test of `SourcesTool._check_all_members_in_path`:
normalise the member (joined to the normalised destination when relative)
and require its character-wise common prefix with the normalised
destination to be the destination itself (`normcase` is the identity on
POSIX). -/
def memberOk (normalizedParent member : String) : Bool :=
  (if isabs member then commonprefix (normpath member) normalizedParent
   else commonprefix (normpath (pjoin normalizedParent member)) normalizedParent)
  = normalizedParent

inductive SourcesErr where
  | notSubPath (member : String)
deriving DecidableEq, Repr

/-- The loop of `_check_all_members_in_path`: raise `ToolError` at the
first offending member. -/
def checkMembers (np : String) : List String → Except SourcesErr Unit
  | [] => .ok ()
  | m :: t => if memberOk np m then checkMembers np t else .error (.notSubPath m)

def checkAllMembersInPath (cwd path : String) (members : List String) :
    Except SourcesErr Unit :=
  checkMembers (abspath cwd path) members

/-- Where a member is materialised by `extract_all(dest)`. -/
def extractTarget (dest member : String) : String := normpath (pjoin dest member)

/-- The path-relevant slice of `SourcesTool.apply` for one archive: run the
member check, then extract every member, returning the materialised
filesystem paths. -/
def sourcesApplyPaths (cwd path : String) (members : List String) :
    Except SourcesErr (List String) :=
  match checkAllMembersInPath cwd path members with
  | .error e => .error e
  | .ok () => .ok (members.map (extractTarget (abspath cwd path)))

/-- Does path `p` lie under directory `d` (both normalised)? -/
def isUnder (d p : String) : Bool := p = d || listPrefix (d ++ "/").toList p.toList

/-- C6 counterexample: the claim concludes that no archive member is ever
materialised outside the destination.  The member `../app2/x` with
destination `/opt/app` normalises to `/opt/app2/x`, whose character-wise
common prefix with `/opt/app` is `/opt/app` itself, so the check passes -
yet the member is materialised at `/opt/app2/x`, outside `/opt/app`. -/
theorem sources_escape_counterexample :
    checkAllMembersInPath "/" "/opt/app" ["../app2/x"] = .ok ()
    ∧ sourcesApplyPaths "/" "/opt/app" ["../app2/x"] = .ok ["/opt/app2/x"]
    ∧ isUnder "/opt/app" "/opt/app2/x" = false := by
  refine ⟨by decide, by decide, by decide⟩

/-- C6 (amended): `apply` raises `ToolError` before any extraction exactly
when some member's normalised form has a character-wise common prefix with
the canonical destination that is not the destination itself; when every
member passes that test the archive is extracted and each member is
materialised at `normpath(join(dest, member))`.  The check does not
guarantee that every materialised path lies under the destination: a
member whose normalised path extends the destination as a string without
extending it as a path component (a sibling such as `/opt/app2`) passes
the test and lands outside. -/
theorem sources_member_check_spec :
    (∀ (cwd path : String) (members : List String) (m : String),
      m ∈ members → memberOk (abspath cwd path) m = false →
      ∃ m2, memberOk (abspath cwd path) m2 = false ∧ m2 ∈ members ∧
        sourcesApplyPaths cwd path members = .error (.notSubPath m2))
    ∧ (∀ (np : String) (members : List String),
        checkMembers np members = .ok () ↔ ∀ m ∈ members, memberOk np m = true)
    ∧ (∀ (cwd path : String) (members : List String),
        (∀ m ∈ members, memberOk (abspath cwd path) m = true) →
        sourcesApplyPaths cwd path members =
          .ok (members.map (extractTarget (abspath cwd path)))) := by
  have hiff : ∀ (np : String) (members : List String),
      checkMembers np members = .ok () ↔ ∀ m ∈ members, memberOk np m = true := by
    intro np members
    induction members with
    | nil => simp [checkMembers]
    | cons m t ih =>
      rw [checkMembers]
      by_cases hm : memberOk np m
      · rw [if_pos hm, ih]
        simp [hm]
      · rw [if_neg hm]
        simp only [List.mem_cons]
        constructor
        · intro hc; cases hc
        · intro hall
          exact absurd (hall m (Or.inl rfl)) hm
  have herr : ∀ (np : String) (members : List String) (m : String),
      m ∈ members → memberOk np m = false →
      ∃ m2, memberOk np m2 = false ∧ m2 ∈ members ∧
        checkMembers np members = .error (.notSubPath m2) := by
    intro np members
    induction members with
    | nil => intro m hm; cases hm
    | cons m0 t ih =>
      intro m hm hfail
      by_cases hm0 : memberOk np m0
      · have hmt : m ∈ t := by
          rcases List.mem_cons.1 hm with h | h
          · rw [h] at hfail; rw [hfail] at hm0; cases hm0
          · exact h
        obtain ⟨m2, h1, h2, h3⟩ := ih m hmt hfail
        exact ⟨m2, h1, List.mem_cons_of_mem _ h2, by rw [checkMembers, if_pos hm0]; exact h3⟩
      · refine ⟨m0, by simpa using hm0, List.mem_cons_self m0 t, ?_⟩
        rw [checkMembers, if_neg hm0]
  refine ⟨?_, hiff, ?_⟩
  · intro cwd path members m hm hfail
    obtain ⟨m2, h1, h2, h3⟩ := herr (abspath cwd path) members m hm hfail
    refine ⟨m2, h1, h2, ?_⟩
    unfold sourcesApplyPaths checkAllMembersInPath
    rw [h3]
  · intro cwd path members hall
    unfold sourcesApplyPaths checkAllMembersInPath
    rw [(hiff (abspath cwd path) members).2 hall]

/-- C6 witness: an absolute member escaping the destination is rejected
before extraction, and a harmless member passes the check. -/
theorem sources_member_check_spec_witness :
    (∃ m2, memberOk (abspath "/" "/opt/app") m2 = false
      ∧ m2 ∈ ["good.txt", "/etc/passwd"]
      ∧ sourcesApplyPaths "/" "/opt/app" ["good.txt", "/etc/passwd"]
          = .error (.notSubPath m2))
    ∧ (checkMembers (abspath "/" "/opt/app") ["good.txt"] = .ok ()
        ↔ ∀ m ∈ ["good.txt"], memberOk (abspath "/" "/opt/app") m = true)
    ∧ sourcesApplyPaths "/" "/opt/app" ["good.txt"]
        = .ok (["good.txt"].map (extractTarget (abspath "/" "/opt/app"))) := by
  refine ⟨sources_member_check_spec.1 "/" "/opt/app" ["good.txt", "/etc/passwd"]
      "/etc/passwd" (by decide) (by decide),
    sources_member_check_spec.2.1 (abspath "/" "/opt/app") ["good.txt"],
    sources_member_check_spec.2.2 "/" "/opt/app" ["good.txt"] ?_⟩
  intro m hm
  rcases List.mem_singleton.1 hm with rfl
  decide

/-! ### json_file_manager.py - the persisted-value Converter

`Converter` is instantiated with no user-defined types by this model (the
claims quantify over datetimes, deques and JSON-native values).
`serialize` wraps a deque or a datetime in a single-key dict whose key is
the type sentinel marker, recursing only through deque elements;
`deserialize` inverts by key lookup.  `strftime`/`strptime` with the
converter format `"%Y-%m-%dT%H:%M:%S.%f"` (the double quotes are literal
characters of the format) are implemented directly; the fixed-width
rendering matches CPython, whose `strftime` also requires `year >= 1900`
on Python 2, so validity of the datetime is a hypothesis.
-/

def dequeMarker : String := "_deque: special_serialization: not_regular_json_"

def datetimeMarker : String := "_datetime: special_serialization: not_regular_json_"

def digitChar (d : Nat) : Char := Char.ofNat (48 + d)

def pad2 (n : Nat) : List Char := [digitChar (n / 10 % 10), digitChar (n % 10)]

def pad4 (n : Nat) : List Char :=
  [digitChar (n / 1000 % 10), digitChar (n / 100 % 10), digitChar (n / 10 % 10),
   digitChar (n % 10)]

def pad6 (n : Nat) : List Char :=
  [digitChar (n / 100000 % 10), digitChar (n / 10000 % 10), digitChar (n / 1000 % 10),
   digitChar (n / 100 % 10), digitChar (n / 10 % 10), digitChar (n % 10)]

/-- Model of `Converter._datetime2str`: `d.strftime('"%Y-%m-%dT%H:%M:%S.%f"')`. -/
def datetime2str (d : PyDateTime) : String :=
  String.mk ('"' :: pad4 d.year ++ '-' :: pad2 d.month ++ '-' :: pad2 d.day
    ++ 'T' :: pad2 d.hour ++ ':' :: pad2 d.minute ++ ':' :: pad2 d.second
    ++ '.' :: pad6 d.microsecond ++ ['"'])

def digitVal (c : Char) : Option Nat :=
  if '0' ≤ c ∧ c ≤ '9' then some (c.toNat - 48) else Option.none

def parseDigits : Nat → Nat → List Char → Option (Nat × List Char)
  | 0, acc, rest => some (acc, rest)
  | n + 1, acc, l =>
    match l with
    | c :: t =>
      match digitVal c with
      | some d => parseDigits n (acc * 10 + d) t
      | Option.none => Option.none
    | [] => Option.none

def expectChar (c : Char) : List Char → Option (List Char)
  | x :: t => if x = c then some t else Option.none
  | [] => Option.none

def isLeap (y : Nat) : Bool := y % 4 = 0 ∧ (y % 100 ≠ 0 ∨ y % 400 = 0)

def daysInMonth (y m : Nat) : Nat :=
  if m = 2 then (if isLeap y then 29 else 28)
  else if m = 4 ∨ m = 6 ∨ m = 9 ∨ m = 11 then 30
  else 31

/-- The range checks `datetime.datetime` applies to parsed components. -/
def validComponents (y mo dd hh mi ss us : Nat) : Prop :=
  1 ≤ y ∧ y ≤ 9999 ∧ 1 ≤ mo ∧ mo ≤ 12 ∧ 1 ≤ dd ∧ dd ≤ daysInMonth y mo
  ∧ hh ≤ 23 ∧ mi ≤ 59 ∧ ss ≤ 59 ∧ us ≤ 999999

instance (y mo dd hh mi ss us : Nat) : Decidable (validComponents y mo dd hh mi ss us) := by
  unfold validComponents; infer_instance

/-- A datetime `strftime` accepts on Python 2: valid components and
`year >= 1900`. -/
def PyDateTime.valid (d : PyDateTime) : Prop :=
  validComponents d.year d.month d.day d.hour d.minute d.second d.microsecond
  ∧ 1900 ≤ d.year

/-- Model of `Converter._str2datetime`:
`datetime.strptime(t, '"%Y-%m-%dT%H:%M:%S.%f"')` for the fixed-width
strings the converter writes (`strptime` would also accept shorter digit
runs, which the converter never produces). -/
def str2datetime (s : String) : Option PyDateTime :=
  (expectChar '"' s.toList).bind fun r1 =>
  (parseDigits 4 0 r1).bind fun p1 =>
  (expectChar '-' p1.2).bind fun r3 =>
  (parseDigits 2 0 r3).bind fun p2 =>
  (expectChar '-' p2.2).bind fun r5 =>
  (parseDigits 2 0 r5).bind fun p3 =>
  (expectChar 'T' p3.2).bind fun r7 =>
  (parseDigits 2 0 r7).bind fun p4 =>
  (expectChar ':' p4.2).bind fun r9 =>
  (parseDigits 2 0 r9).bind fun p5 =>
  (expectChar ':' p5.2).bind fun r11 =>
  (parseDigits 2 0 r11).bind fun p6 =>
  (expectChar '.' p6.2).bind fun r13 =>
  (parseDigits 6 0 r13).bind fun p7 =>
  (expectChar '"' p7.2).bind fun r15 =>
  if r15 = [] ∧ validComponents p1.1 p2.1 p3.1 p4.1 p5.1 p6.1 p7.1 then
    some ⟨p1.1, p2.1, p3.1, p4.1, p5.1, p6.1, p7.1⟩
  else Option.none

lemma alookup_sizeOf {v : PyVal} :
    ∀ (entries : List (String × PyVal)) (k : String),
    alookup entries k = some v → sizeOf v < sizeOf entries := by
  intro entries
  induction entries with
  | nil => intro k h; cases h
  | cons p t ih =>
    intro k h
    rw [alookup] at h
    by_cases hk : p.1 = k
    · rw [if_pos hk] at h
      cases h
      rcases p with ⟨k0, v0⟩
      simp
      omega
    · rw [if_neg hk] at h
      have := ih k h
      rcases p with ⟨k0, v0⟩
      simp at this ⊢
      omega

/-- Model of `Converter.serialize` (no user-defined types): wrap a deque
(recursing into its elements) or a datetime in a single-key marker dict;
return any other value unchanged (`deepcopy` is the identity on the pure
model). -/
def serialize : PyVal → PyVal
  | .deque l => .dict [(dequeMarker, .list (l.attach.map (fun v => serialize v.1)))]
  | .datetime d => .dict [(datetimeMarker, .str (datetime2str d))]
  | v => v
termination_by v => sizeOf v
decreasing_by
  simp_wf
  have := List.sizeOf_lt_of_mem v.2
  omega

mutual

/-- Model of `Converter.deserialize` (no user-defined types): a non-dict
is returned as-is; a dict carrying the deque marker iterates its payload
(`deque(self.deserialize(v) for v in payload)`; iterating a string yields
its characters and iterating a dict its keys, both of which `deserialize`
returns unchanged, and a non-iterable payload raises TypeError); a dict
carrying the datetime marker parses its payload with `strptime`
(TypeError on a non-string, ValueError on a malformed string); any other
dict is returned as-is. -/
def deserialize : PyVal → Except PyErr PyVal
  | .dict entries =>
    match hq : alookup entries dequeMarker with
    | some (.list l) =>
        match deserializeList l with
        | .ok items => .ok (.deque items)
        | .error e => .error e
    | some (.deque l) =>
        match deserializeList l with
        | .ok items => .ok (.deque items)
        | .error e => .error e
    | some (.str s) => .ok (.deque (s.toList.map (fun c => .str (String.mk [c]))))
    | some (.dict d) => .ok (.deque (d.map (fun p => .str p.1)))
    | some _ => .error .typeError
    | Option.none =>
      match alookup entries datetimeMarker with
      | some (.str s) =>
          match str2datetime s with
          | some dt => .ok (.datetime dt)
          | Option.none => .error .valueError
      | some _ => .error .typeError
      | Option.none => .ok (.dict entries)
  | v => .ok v
termination_by v => sizeOf v
decreasing_by
  · simp_wf
    have h1 := alookup_sizeOf _ _ hq
    simp at h1
    omega
  · simp_wf
    have h1 := alookup_sizeOf _ _ hq
    simp at h1
    omega

def deserializeList : List PyVal → Except PyErr (List PyVal)
  | [] => .ok []
  | x :: t =>
    match deserialize x with
    | .ok y =>
        match deserializeList t with
        | .ok ys => .ok (y :: ys)
        | .error e => .error e
    | .error e => .error e
termination_by l => sizeOf l
decreasing_by
  all_goals simp_wf
  all_goals omega

end

lemma toList_mk (l : List Char) : (String.mk l).toList = l := rfl

lemma digitVal_digitChar (d : Nat) (hd : d < 10) : digitVal (digitChar d) = some d := by
  interval_cases d <;> decide

lemma parseDigits_cons (n acc d : Nat) (t : List Char) (hd : d < 10) :
    parseDigits (n + 1) acc (digitChar d :: t) = parseDigits n (acc * 10 + d) t := by
  simp [parseDigits, digitVal_digitChar d hd]

lemma parseDigits_pad2 (y : Nat) (hy : y < 100) (rest : List Char) :
    parseDigits 2 0 (pad2 y ++ rest) = some (y, rest) := by
  rw [pad2]
  simp only [List.cons_append, List.nil_append]
  rw [parseDigits_cons _ _ _ _ (Nat.mod_lt _ (by norm_num)),
    parseDigits_cons _ _ _ _ (Nat.mod_lt _ (by norm_num)), parseDigits]
  have : (0 * 10 + y / 10 % 10) * 10 + y % 10 = y := by omega
  rw [this]

lemma parseDigits_pad4 (y : Nat) (hy : y < 10000) (rest : List Char) :
    parseDigits 4 0 (pad4 y ++ rest) = some (y, rest) := by
  rw [pad4]
  simp only [List.cons_append, List.nil_append]
  rw [parseDigits_cons _ _ _ _ (Nat.mod_lt _ (by norm_num)),
    parseDigits_cons _ _ _ _ (Nat.mod_lt _ (by norm_num)),
    parseDigits_cons _ _ _ _ (Nat.mod_lt _ (by norm_num)),
    parseDigits_cons _ _ _ _ (Nat.mod_lt _ (by norm_num)), parseDigits]
  have : (((0 * 10 + y / 1000 % 10) * 10 + y / 100 % 10) * 10 + y / 10 % 10) * 10 + y % 10
      = y := by omega
  rw [this]

lemma parseDigits_pad6 (y : Nat) (hy : y < 1000000) (rest : List Char) :
    parseDigits 6 0 (pad6 y ++ rest) = some (y, rest) := by
  rw [pad6]
  simp only [List.cons_append, List.nil_append]
  rw [parseDigits_cons _ _ _ _ (Nat.mod_lt _ (by norm_num)),
    parseDigits_cons _ _ _ _ (Nat.mod_lt _ (by norm_num)),
    parseDigits_cons _ _ _ _ (Nat.mod_lt _ (by norm_num)),
    parseDigits_cons _ _ _ _ (Nat.mod_lt _ (by norm_num)),
    parseDigits_cons _ _ _ _ (Nat.mod_lt _ (by norm_num)),
    parseDigits_cons _ _ _ _ (Nat.mod_lt _ (by norm_num)), parseDigits]
  have : (((((0 * 10 + y / 100000 % 10) * 10 + y / 10000 % 10) * 10 + y / 1000 % 10) * 10
      + y / 100 % 10) * 10 + y / 10 % 10) * 10 + y % 10 = y := by omega
  rw [this]

lemma expectChar_cons (c : Char) (t : List Char) : expectChar c (c :: t) = some t := by
  simp [expectChar]

lemma str2datetime_datetime2str (d : PyDateTime) (hv : d.valid) :
    str2datetime (datetime2str d) = some d := by
  obtain ⟨y, mo, dd, hh, mi, ss, us⟩ := d
  obtain ⟨hvc, hy1900⟩ := hv
  obtain ⟨h1, h2, h3, h4, h5, h6, h7, h8, h9, h10⟩ := hvc
  simp only at h1 h2 h3 h4 h5 h6 h7 h8 h9 h10 hy1900
  have hdm : daysInMonth y mo ≤ 31 := by
    unfold daysInMonth
    split_ifs <;> norm_num
  have hvcc : validComponents y mo dd hh mi ss us :=
    ⟨h1, h2, h3, h4, h5, h6, h7, h8, h9, h10⟩
  unfold str2datetime datetime2str
  simp only [toList_mk, List.cons_append, List.nil_append, List.append_assoc,
    expectChar_cons, Option.some_bind,
    parseDigits_pad4 y (by omega : y < 10000),
    parseDigits_pad2 mo (by omega : mo < 100),
    parseDigits_pad2 dd (by omega : dd < 100),
    parseDigits_pad2 hh (by omega : hh < 100),
    parseDigits_pad2 mi (by omega : mi < 100),
    parseDigits_pad2 ss (by omega : ss < 100),
    parseDigits_pad6 us (by omega : us < 1000000)]
  rw [if_pos ⟨trivial, hvcc⟩]

/-- Values JSON can represent natively (no deque, no datetime anywhere). -/
inductive JSONNative : PyVal → Prop
  | none : JSONNative .none
  | bool (b : Bool) : JSONNative (.bool b)
  | int (n : Int) : JSONNative (.int n)
  | str (s : String) : JSONNative (.str s)
  | list (l : List PyVal) : (∀ v ∈ l, JSONNative v) → JSONNative (.list l)
  | dict (e : List (String × PyVal)) : (∀ p ∈ e, JSONNative p.2) → JSONNative (.dict e)

/-- No sentinel marker key at the top level of a dict (the positions
`deserialize` inspects). -/
def noMarkerTop : PyVal → Prop
  | .dict e => alookup e dequeMarker = Option.none ∧ alookup e datetimeMarker = Option.none
  | _ => True

/-- The values whose round trip through the converter is the identity:
JSON-native values not carrying a sentinel marker as a top-level dict key,
datetimes `strftime` accepts, and deques of such values. -/
inductive RoundTrippable : PyVal → Prop
  | native (v : PyVal) : JSONNative v → noMarkerTop v → RoundTrippable v
  | dt (d : PyDateTime) : d.valid → RoundTrippable (.datetime d)
  | deque (l : List PyVal) : (∀ v ∈ l, RoundTrippable v) → RoundTrippable (.deque l)

lemma list_attach_map_serialize (l : List PyVal) :
    l.attach.map (fun v => serialize v.1) = l.map serialize := by
  rw [List.attach_map_val]

lemma serialize_deque (l : List PyVal) :
    serialize (.deque l) = .dict [(dequeMarker, .list (l.map serialize))] := by
  rw [serialize, list_attach_map_serialize]

lemma serialize_datetime (d : PyDateTime) :
    serialize (.datetime d) = .dict [(datetimeMarker, .str (datetime2str d))] := by
  rw [serialize]

lemma serialize_jsonNative (v : PyVal) (h : JSONNative v) : serialize v = v := by
  cases h <;> simp [serialize]

lemma deserialize_not_dict (v : PyVal) (h : ∀ e, v ≠ PyVal.dict e) :
    deserialize v = .ok v := by
  cases v with
  | dict e => exact absurd rfl (h e)
  | none => simp [deserialize]
  | bool b => simp [deserialize]
  | int n => simp [deserialize]
  | str s => simp [deserialize]
  | list l => simp [deserialize]
  | deque l => simp [deserialize]
  | datetime d => simp [deserialize]

lemma deserialize_dict_no_markers (entries : List (String × PyVal))
    (h1 : alookup entries dequeMarker = Option.none)
    (h2 : alookup entries datetimeMarker = Option.none) :
    deserialize (.dict entries) = .ok (.dict entries) := by
  rw [deserialize]
  split
  all_goals rename_i heq
  all_goals rw [h1] at heq
  all_goals try cases heq
  rw [h2]

lemma deserializeList_roundtrip (l : List PyVal)
    (ih : ∀ v ∈ l, deserialize (serialize v) = .ok v) :
    deserializeList (l.map serialize) = .ok l := by
  induction l with
  | nil => rw [List.map_nil, deserializeList]
  | cons x t iht =>
    rw [List.map_cons, deserializeList, ih x (List.mem_cons_self x t),
      iht (fun v hv => ih v (List.mem_cons_of_mem _ hv))]

lemma marker_keys_distinct : datetimeMarker ≠ dequeMarker := by decide

def dequePayloadDecode : PyVal → Except PyErr PyVal
  | .list l =>
      (match deserializeList l with
       | .ok items => .ok (.deque items)
       | .error e => .error e)
  | .deque l =>
      (match deserializeList l with
       | .ok items => .ok (.deque items)
       | .error e => .error e)
  | .str s => .ok (.deque (s.toList.map (fun c => .str (String.mk [c]))))
  | .dict d => .ok (.deque (d.map (fun p => .str p.1)))
  | _ => .error .typeError

lemma deserialize_deque_marker (x : PyVal) :
    deserialize (.dict [(dequeMarker, x)]) = dequePayloadDecode x := by
  have hl : alookup [(dequeMarker, x)] dequeMarker = some x := by
    rw [alookup, if_pos rfl]
  rw [deserialize]
  split
  all_goals rename_i heq
  all_goals rw [hl] at heq
  all_goals try (injection heq with heq2; subst heq2; rfl)
  all_goals try (exact Option.noConfusion heq)
  rename_i v h1 h2 h3 h4
  injection heq with heq2
  rw [heq2]
  cases v with
  | none => rfl
  | bool b => rfl
  | int n => rfl
  | datetime d2 => rfl
  | list l => exact (h1 l rfl).elim
  | deque l => exact (h2 l rfl).elim
  | str st => exact (h3 st rfl).elim
  | dict d2 => exact (h4 d2 rfl).elim

lemma deserialize_datetime_marker (s : String) :
    deserialize (.dict [(datetimeMarker, PyVal.str s)]) =
      (match str2datetime s with
       | some dt => .ok (.datetime dt)
       | Option.none => .error .valueError) := by
  have hq : alookup [(datetimeMarker, PyVal.str s)] dequeMarker = Option.none := by
    rw [alookup, if_neg marker_keys_distinct]
    rfl
  have hd : alookup [(datetimeMarker, PyVal.str s)] datetimeMarker
      = some (PyVal.str s) := by
    rw [alookup, if_pos rfl]
  rw [deserialize]
  split
  all_goals rename_i heq
  all_goals rw [hq] at heq
  all_goals try cases heq
  rw [hd]

/-- C9 counterexample: a plain JSON-native dict whose (only) key is the
deque sentinel marker.  `serialize` leaves it unchanged, but `deserialize`
reads the marker and produces an empty deque, so the round trip is not the
identity on this JSON-native value. -/
theorem converter_marker_clash_counterexample :
    serialize (.dict [(dequeMarker, .list [])]) = .dict [(dequeMarker, .list [])]
    ∧ deserialize (serialize (.dict [(dequeMarker, .list [])])) = .ok (.deque [])
    ∧ (Except.ok (PyVal.deque []) : Except PyErr PyVal)
        ≠ .ok (.dict [(dequeMarker, .list [])]) := by
  have hs : serialize (.dict [(dequeMarker, PyVal.list [])])
      = .dict [(dequeMarker, PyVal.list [])] := by
    simp [serialize]
  refine ⟨hs, ?_, ?_⟩
  · rw [hs, deserialize_deque_marker (.list []), dequePayloadDecode, deserializeList]
  · intro h
    cases h

/-- C9 (amended): the converter round trip is the identity on every
datetime within the Python 2 `strftime` range, every deque of
round-trippable values, and every plain JSON-native value that does not
use a sentinel marker as a top-level dict key (at any position
`deserialize` inspects, i.e. through deque nesting); `serialize` wraps a
datetime and a deque in a single-key object keyed by that type's sentinel
marker and leaves JSON-native values unchanged. -/
theorem converter_roundtrip_spec :
    (∀ v : PyVal, RoundTrippable v → deserialize (serialize v) = .ok v)
    ∧ (∀ d : PyDateTime,
        serialize (.datetime d) = .dict [(datetimeMarker, .str (datetime2str d))])
    ∧ (∀ l : List PyVal,
        serialize (.deque l) = .dict [(dequeMarker, .list (l.map serialize))])
    ∧ (∀ v : PyVal, JSONNative v → serialize v = v) := by
  refine ⟨?_, serialize_datetime, serialize_deque, serialize_jsonNative⟩
  intro v h
  induction h with
  | native v hn hm =>
    rw [serialize_jsonNative v hn]
    cases hn with
    | dict e he => exact deserialize_dict_no_markers e hm.1 hm.2
    | none => exact deserialize_not_dict _ (by intro e h; cases h)
    | bool b => exact deserialize_not_dict _ (by intro e h; cases h)
    | int n => exact deserialize_not_dict _ (by intro e h; cases h)
    | str s => exact deserialize_not_dict _ (by intro e h; cases h)
    | list l hl => exact deserialize_not_dict _ (by intro e h; cases h)
  | dt d hv =>
    rw [serialize_datetime, deserialize_datetime_marker, str2datetime_datetime2str d hv]
  | deque l hmem ih =>
    rw [serialize_deque, deserialize_deque_marker (.list (l.map serialize)),
      dequePayloadDecode, deserializeList_roundtrip l ih]

/-- C9 witness: a deque containing a datetime, a string and a plain dict
round-trips; the wrapping equations evaluated at the same values. -/
theorem converter_roundtrip_spec_witness :
    deserialize (serialize (.deque [.datetime ⟨2020, 1, 2, 3, 4, 5, 6⟩, .str "x",
        .dict [("k", PyVal.int 1)]]))
      = .ok (.deque [.datetime ⟨2020, 1, 2, 3, 4, 5, 6⟩, .str "x",
        .dict [("k", PyVal.int 1)]])
    ∧ serialize (.datetime ⟨2020, 1, 2, 3, 4, 5, 6⟩)
      = .dict [(datetimeMarker, .str (datetime2str ⟨2020, 1, 2, 3, 4, 5, 6⟩))]
    ∧ serialize (.str "x") = .str "x" := by
  have hdt : PyDateTime.valid ⟨2020, 1, 2, 3, 4, 5, 6⟩ := by
    constructor
    · decide
    · decide
  have hrt : RoundTrippable (.deque [.datetime ⟨2020, 1, 2, 3, 4, 5, 6⟩, .str "x",
      .dict [("k", PyVal.int 1)]]) := by
    apply RoundTrippable.deque
    intro v hv
    simp only [List.mem_cons, List.not_mem_nil, or_false] at hv
    rcases hv with rfl | rfl | rfl
    · exact RoundTrippable.dt _ hdt
    · exact RoundTrippable.native _ (JSONNative.str "x") trivial
    · refine RoundTrippable.native _ (JSONNative.dict _ ?_) ⟨rfl, rfl⟩
      intro p hp
      simp only [List.mem_singleton] at hp
      rw [hp]
      exact JSONNative.int 1
  exact ⟨converter_roundtrip_spec.1 _ hrt, converter_roundtrip_spec.2.1 _,
    converter_roundtrip_spec.2.2.2 _ (JSONNative.str "x")⟩

/-! ### construction.py - configSets, cycle detection and collapse

A `ConfigDefinition` never has its contents read by the configSet
machinery (only the `Carpenter` does, later), so it is represented by its
name.  The `_dependencies` set a `ConfigSet` object maintains is, by
construction (`__init__` / `addConfigDef`), always exactly the set of
`ConfigSetRef` names among its `_defs`; the model therefore derives it
with `dependenciesOf` instead of threading a second field.  Python `dict`
and `set` iteration orders are arbitrary; the model fixes insertion
order, which the verified properties do not depend on.
-/

/-- An element of a parsed configSet: a `ConfigDefinition` (by name) or a
`ConfigSetRef`. -/
inductive CItem where
  | config (name : String)
  | ref (name : String)
deriving DecidableEq, Repr

/-- The parsed-JSON shape `_processConfigList` accepts: a bare config
name, a `{"ConfigSet": name}` reference, or a (nested) list of these. -/
inductive ConfigExpr where
  | name (s : String)
  | refSet (s : String)
  | listE (l : List ConfigExpr)
deriving Repr

/-- The exceptions of the construction engine that matter here.  The
Python messages interpolate the offending names; the model keeps static
message strings. -/
inductive CErr where
  | noSuchConfiguration (s : String)
  | valueError (s : String)
  | noSuchConfigSet (s : String)
  | circularConfigSetDependency (msg : String)
  | keyError
  | outOfFuel
deriving DecidableEq, Repr

mutual

/-- Model of `Contractor._processConfigList`, returning the `_defs` list
of the resulting `ConfigSet`: a bare name must be a key of the init model
(`modelKeys`); a reference must name a defined configSet (`csNames`,
checked against `model["configSets"]`); a list recurses and concatenates
(`ConfigSet.extend` appends). -/
def processConfigList (modelKeys csNames : List String) : ConfigExpr → Except CErr (List CItem)
  | .name s =>
      if s ∈ modelKeys then .ok [.config s]
      else .error (.noSuchConfiguration s)
  | .refSet s =>
      if s ∈ csNames then .ok [.ref s]
      else .error (.valueError s)
  | .listE l => processConfigListMany modelKeys csNames l

def processConfigListMany (modelKeys csNames : List String) :
    List ConfigExpr → Except CErr (List CItem)
  | [] => .ok []
  | e :: t =>
    match processConfigList modelKeys csNames e with
    | .ok a =>
      match processConfigListMany modelKeys csNames t with
      | .ok b => .ok (a ++ b)
      | .error er => .error er
    | .error er => .error er

end

/-- One step of rebuilding the `_dependencies` set: every distinct
`ConfigSetRef` name, in first-appearance order. -/
def addDep (acc : List String) : CItem → List String
  | .config _ => acc
  | .ref s => if s ∈ acc then acc else acc ++ [s]

def dependenciesOf (defs : List CItem) : List String := defs.foldl addDep []

/-- The first loop of `_processConfigSetsDefinition`: parse every
configSet entry. -/
def parseConfigSets (modelKeys csNames : List String) :
    List (String × ConfigExpr) → Except CErr (List (String × List CItem))
  | [] => .ok []
  | (n, e) :: t =>
    match processConfigList modelKeys csNames e with
    | .ok defs =>
      match parseConfigSets modelKeys csNames t with
      | .ok rest => .ok ((n, defs) :: rest)
      | .error er => .error er
    | .error er => .error er

structure GraphState where
  depTree : List (String × List String)
  revTree : List (String × List String)
  roots : List String

/-- `reverseDependencyTree[dep].add(name)` on the defaultdict-of-sets. -/
def addRevEntry (name : String) (revTree : List (String × List String))
    (dep : String) : List (String × List String) :=
  match alookup revTree dep with
  | some l => alset revTree dep (if name ∈ l then l else l ++ [name])
  | Option.none => revTree ++ [(dep, [name])]

/-- Classify one parsed configSet: dependency-free sets become roots,
the rest get a dependency-tree entry and reverse edges. -/
def buildGraphStep (g : GraphState) (entry : String × List CItem) : GraphState :=
  let deps := dependenciesOf entry.2
  if deps = [] then { g with roots := g.roots ++ [entry.1] }
  else { depTree := g.depTree ++ [(entry.1, deps)],
         revTree := deps.foldl (addRevEntry entry.1) g.revTree,
         roots := g.roots }

def buildGraph (parsed : List (String × List CItem)) : GraphState :=
  parsed.foldl buildGraphStep ⟨[], [], []⟩

/-- Model of `Contractor._collapse`: replace every reference, in place,
by the already-collapsed contents of the referenced set; a reference to a
set that is not yet collapsed raises ValueError (unreachable during the
topological sort). -/
def collapse (configSets : List (String × List String)) : List CItem → Except CErr (List String)
  | [] => .ok []
  | .config c :: t =>
    match collapse configSets t with
    | .ok r => .ok (c :: r)
    | .error er => .error er
  | .ref s :: t =>
    match alookup configSets s with
    | some l =>
      match collapse configSets t with
      | .ok r => .ok (l ++ r)
      | .error er => .error er
    | Option.none => .error (.valueError s)

/-- Specification-side collapse: element-wise, in place, a config stays
and a reference is replaced by the (already collapsed) contents of its
target, preserving declaration order. -/
def collapseSpec (m : List (String × List String)) (items : List CItem) : List String :=
  items.bind fun it =>
    match it with
    | .config c => [c]
    | .ref s => (alookup m s).getD []

/-- The body of `for dependent in reverseDependencyTree.pop(configSet, [])`:
`dependencyTree[dependent].remove(configSet)`, and when the entry empties,
promote the dependent to a root and delete the entry.  A dependent always
has a dependency-tree entry under the loop invariant (Python would raise
KeyError otherwise); a missing key is modelled as a no-op. -/
def processDependent (r : String) (st : List (String × List String) × List String)
    (dep : String) : List (String × List String) × List String :=
  match alookup st.1 dep with
  | some old =>
      let rem := old.filter (· ≠ r)
      if rem = [] then (alerase st.1 dep, st.2 ++ [dep])
      else (alset st.1 dep rem, st.2)
  | Option.none => st

/-- The Kahn topological sort loop of `_processConfigSetsDefinition`,
fuel-indexed (the fuel is an embedding artefact; `parsed.length + 1` is
always enough, each iteration collapsing one not-yet-collapsed set).  Pop
a root, collapse it against the sets already collapsed, update its
dependents, and promote newly dependency-free sets to roots; a non-empty
dependency tree once the roots run out is a circular dependency. -/
def kahnLoop (raw : List (String × List CItem)) :
    Nat → List String → List (String × List String) → List (String × List String) →
    List (String × List String) → Except CErr (List (String × List String))
  | _, [], depTree, _, acc =>
      if depTree = [] then .ok acc
      else .error (.circularConfigSetDependency
        "At least one circular dependency detected; this is not allowed.")
  | 0, _ :: _, _, _, _ => .error .outOfFuel
  | fuel + 1, r :: rs, depTree, revTree, acc =>
      match alookup raw r with
      | Option.none => .error .keyError
      | some defs =>
        match collapse acc defs with
        | .error er => .error er
        | .ok collapsed =>
          let st := ((alookup revTree r).getD []).foldl (processDependent r) (depTree, rs)
          kahnLoop raw fuel st.2 st.1 (alerase revTree r) (acc ++ [(r, collapsed)])

/-- Model of `Contractor._processConfigSetsDefinition`: parse, build the
dependency graph, raise `CircularConfigSetDependency` when no roots
exist, then run the topological collapse. -/
def processConfigSetsDefinition (csDef : List (String × ConfigExpr))
    (modelKeys : List String) : Except CErr (List (String × List String)) :=
  match parseConfigSets modelKeys (csDef.map Prod.fst) csDef with
  | .error er => .error er
  | .ok parsed =>
    let g := buildGraph parsed
    if g.roots = [] then
      .error (.circularConfigSetDependency
        "No configSets exist without references; this creates a circular dependency and is not allowed")
    else kahnLoop parsed (parsed.length + 1) g.roots g.depTree g.revTree []

/-- The init section of the metadata model: the optional `configSets`
mapping and the list of keys of the init mapping (config names, plus the
`configSets` key itself when present - `_processConfigList` checks bare
names against this very mapping). -/
structure InitModel where
  configSets : Option (List (String × ConfigExpr))
  keys : List String

/-- Model of the configSet resolution in `Contractor.__init__`: without a
`configSets` key a virtual set `default = [config]` is synthesised. -/
def contractorConfigSets (m : InitModel) : Except CErr (List (String × List String)) :=
  match m.configSets with
  | Option.none => .ok [("default", ["config"])]
  | some csDef => processConfigSetsDefinition csDef m.keys

/-- Model of `Contractor.build`: run the requested configSets in order;
the returned trace lists the names of the configs handed to the
Carpenter, in execution order (each is one sequence of tool
invocations). -/
def contractorBuild (configSets : List (String × List String)) :
    List String → Except CErr (List String)
  | [] => .ok []
  | n :: t =>
    match alookup configSets n with
    | Option.none => .error (.noSuchConfigSet n)
    | some cfgs =>
      match contractorBuild configSets t with
      | .ok r => .ok (cfgs ++ r)
      | .error er => .error er

/-- Contractor construction followed by `build`: an error during
construction means no config ever runs. -/
def fullBuild (m : InitModel) (requested : List String) : Except CErr (List String) :=
  match contractorConfigSets m with
  | .ok cs => contractorBuild cs requested
  | .error er => .error er

/-- The dependency function of a parsed model: the distinct reference
names of a configSet's definition list. -/
def depsFun (parsed : List (String × List CItem)) (n : String) : List String :=
  dependenciesOf ((alookup parsed n).getD [])

/-- A name is grounded when every configSet it references is grounded:
well-foundedness of the reference relation, the standard formalisation of
an acyclic reference graph on a finite node set. -/
inductive Grounded (deps : String → List String) : String → Prop
  | intro (n : String) : (∀ d ∈ deps n, Grounded deps d) → Grounded deps n

/-- A nonempty path in the reference graph. -/
inductive DepPath (deps : String → List String) : String → String → Prop
  | single (a b : String) : b ∈ deps a → DepPath deps a b
  | cons (a b c : String) : b ∈ deps a → DepPath deps b c → DepPath deps a c

example :
    processConfigSetsDefinition
      [("A", .listE [.name "c1", .refSet "B"]), ("B", .listE [.name "c2"])]
      ["configSets", "c1", "c2"]
    = .ok [("B", ["c2"]), ("A", ["c1", "c2"])] := by decide

example :
    fullBuild ⟨some [("A", .listE [.name "c1", .refSet "B"]), ("B", .listE [.name "c2"])],
      ["configSets", "c1", "c2"]⟩ ["A"] = .ok ["c1", "c2"] := by decide

example :
    ∃ msg, processConfigSetsDefinition
      [("A", .listE [.refSet "B"]), ("B", .listE [.refSet "A"])]
      ["configSets"]
    = .error (.circularConfigSetDependency msg) :=
  ⟨"No configSets exist without references; this creates a circular dependency and is not allowed",
    by decide⟩

/-! #### Association-list facts used by the topological-sort proofs -/

lemma alookup_isSome_iff {α : Type} (l : List (String × α)) (k : String) :
    (∃ v, alookup l k = some v) ↔ k ∈ l.map Prod.fst := by
  induction l with
  | nil => simp [alookup]
  | cons p t ih =>
    rw [alookup]
    by_cases hk : p.1 = k
    · simp [hk]
    · rcases p with ⟨k0, v0⟩
      simp only at hk
      simp [hk, ih, Ne.symm hk]

lemma alookup_eq_none_iff {α : Type} (l : List (String × α)) (k : String) :
    alookup l k = Option.none ↔ k ∉ l.map Prod.fst := by
  rw [← alookup_isSome_iff]
  cases h : alookup l k <;> simp [h]

lemma alookup_alset {α : Type} (l : List (String × α)) (s x : String) (v : α) :
    alookup (alset l s v) x = if s = x then some v else alookup l x := by
  induction l with
  | nil => simp [alset, alookup]
  | cons p t ih =>
    rcases p with ⟨k, w⟩
    rw [alset]
    by_cases hk : k = s
    · subst hk
      rw [if_pos rfl, alookup, alookup]
      by_cases hx : k = x <;> simp [hx]
    · rw [if_neg hk, alookup, alookup]
      by_cases hx : k = x
      · subst hx
        rw [if_pos rfl, if_pos rfl, if_neg]
        intro hc; exact hk hc.symm
      · rw [if_neg hx, if_neg hx, ih]

lemma alookup_alerase_ne {α : Type} (l : List (String × α)) (s x : String) (h : x ≠ s) :
    alookup (alerase l s) x = alookup l x := by
  induction l with
  | nil => simp [alerase]
  | cons p t ih =>
    rcases p with ⟨k, w⟩
    rw [alerase]
    by_cases hk : k = s
    · rw [if_pos hk, alookup, if_neg]
      intro hc; exact h (hc ▸ hk)
    · rw [if_neg hk, alookup, alookup]
      by_cases hx : k = x
      · simp [hx]
      · rw [if_neg hx, if_neg hx, ih]

lemma keys_alerase {α : Type} (l : List (String × α)) (s : String) :
    (alerase l s).map Prod.fst = (l.map Prod.fst).erase s := by
  induction l with
  | nil => simp [alerase]
  | cons p t ih =>
    rcases p with ⟨k, w⟩
    rw [alerase]
    by_cases hk : k = s
    · subst hk
      rw [if_pos rfl, List.map_cons, List.erase_cons_head]
    · rw [if_neg hk, List.map_cons, List.map_cons, List.erase_cons_tail, ih]
      simp [hk]

lemma alookup_alerase_self {α : Type} (l : List (String × α)) (s : String)
    (h : (l.map Prod.fst).Nodup) : alookup (alerase l s) s = Option.none := by
  rw [alookup_eq_none_iff, keys_alerase]
  intro hc
  exact (h.mem_erase_iff.1 hc).1 rfl

lemma keys_alset {α : Type} (l : List (String × α)) (s : String) (v : α) :
    (alset l s v).map Prod.fst
      = if s ∈ l.map Prod.fst then l.map Prod.fst else l.map Prod.fst ++ [s] := by
  induction l with
  | nil => simp [alset]
  | cons p t ih =>
    rcases p with ⟨k, w⟩
    rw [alset]
    by_cases hk : k = s
    · subst hk
      simp
    · rw [if_neg hk, List.map_cons, List.map_cons, ih]
      by_cases hs : s ∈ t.map Prod.fst
      · rw [if_pos hs, if_pos]
        simp [hs]
      · rw [if_neg hs, if_neg]
        · simp
        · simp only [List.mem_cons]
          rintro (hc | hc)
          · exact hk hc.symm
          · exact hs hc

lemma alookup_append_left {α : Type} (l1 l2 : List (String × α)) (k : String) (v : α)
    (h : alookup l1 k = some v) : alookup (l1 ++ l2) k = some v := by
  induction l1 with
  | nil => cases h
  | cons p t ih =>
    rw [List.cons_append, alookup]
    rw [alookup] at h
    by_cases hk : p.1 = k
    · rw [if_pos hk] at h
      rw [if_pos hk]
      exact h
    · rw [if_neg hk]
      exact ih (by rwa [if_neg hk] at h)

lemma alookup_append_right {α : Type} (l1 l2 : List (String × α)) (k : String)
    (h : alookup l1 k = Option.none) : alookup (l1 ++ l2) k = alookup l2 k := by
  induction l1 with
  | nil => rfl
  | cons p t ih =>
    rw [List.cons_append, alookup]
    rw [alookup] at h
    by_cases hk : p.1 = k
    · rw [if_pos hk] at h; cases h
    · rw [if_neg hk]
      exact ih (by rwa [if_neg hk] at h)

lemma alookup_mem_of_nodup {α : Type} (l : List (String × α)) (k : String) (v : α)
    (hn : (l.map Prod.fst).Nodup) : (k, v) ∈ l ↔ alookup l k = some v := by
  induction l with
  | nil => simp [alookup]
  | cons p t ih =>
    rcases p with ⟨k0, v0⟩
    simp only [List.map_cons, List.nodup_cons] at hn
    rw [alookup, List.mem_cons]
    by_cases hk : k0 = k
    · subst hk
      rw [if_pos rfl]
      constructor
      · rintro (hc | hc)
        · rw [Prod.mk.injEq] at hc
          rw [hc.2]
        · exact absurd (List.mem_map_of_mem Prod.fst hc) (by simpa using hn.1)
      · intro hc
        injection hc with hv
        exact Or.inl (by rw [hv])
    · rw [if_neg hk, ← ih hn.2]
      constructor
      · rintro (hc | hc)
        · rw [Prod.mk.injEq] at hc
          exact absurd hc.1.symm hk
        · exact hc
      · exact Or.inr

/-! #### Dependencies and collapse -/

lemma mem_foldl_addDep (l : List CItem) :
    ∀ (acc : List String) (s : String),
    s ∈ l.foldl addDep acc ↔ s ∈ acc ∨ CItem.ref s ∈ l := by
  induction l with
  | nil => intro acc s; simp
  | cons it t ih =>
    intro acc s
    rw [List.foldl_cons, ih]
    cases it with
    | config c => simp [addDep]
    | ref r =>
      by_cases hr : r ∈ acc
      · simp only [addDep, if_pos hr, List.mem_cons]
        constructor
        · rintro (h | h)
          · exact Or.inl h
          · exact Or.inr (Or.inr h)
        · rintro (h | h | h)
          · exact Or.inl h
          · injection h with h3; subst h3; exact Or.inl hr
          · exact Or.inr h
      · simp only [addDep, if_neg hr, List.mem_append, List.mem_cons,
          List.not_mem_nil, or_false]
        constructor
        · rintro ((h | h) | h)
          · exact Or.inl h
          · subst h; exact Or.inr (Or.inl rfl)
          · exact Or.inr (Or.inr h)
        · rintro (h | h | h)
          · exact Or.inl (Or.inl h)
          · injection h with h3; subst h3; exact Or.inl (Or.inr rfl)
          · exact Or.inr h

lemma mem_dependenciesOf (defs : List CItem) (s : String) :
    s ∈ dependenciesOf defs ↔ CItem.ref s ∈ defs := by
  rw [dependenciesOf, mem_foldl_addDep]
  simp

lemma nodup_foldl_addDep (l : List CItem) :
    ∀ acc : List String, acc.Nodup → (l.foldl addDep acc).Nodup := by
  induction l with
  | nil => intro acc h; simpa
  | cons it t ih =>
    intro acc h
    rw [List.foldl_cons]
    cases it with
    | config c => exact ih acc h
    | ref r =>
      rw [addDep]
      by_cases hr : r ∈ acc
      · rw [if_pos hr]; exact ih acc h
      · rw [if_neg hr]
        exact ih _ (by simp [List.nodup_append, h, hr])

lemma nodup_dependenciesOf (defs : List CItem) : (dependenciesOf defs).Nodup :=
  nodup_foldl_addDep defs [] List.nodup_nil

lemma collapse_ok (m : List (String × List String)) (items : List CItem)
    (h : ∀ s, CItem.ref s ∈ items → s ∈ m.map Prod.fst) :
    collapse m items = .ok (collapseSpec m items) := by
  induction items with
  | nil => rfl
  | cons it t ih =>
    have ht : ∀ s, CItem.ref s ∈ t → s ∈ m.map Prod.fst :=
      fun s hs => h s (List.mem_cons_of_mem _ hs)
    cases it with
    | config c =>
      rw [collapse, ih ht]
      have hcs : collapseSpec m (CItem.config c :: t) = c :: collapseSpec m t := by
        simp [collapseSpec]
      rw [hcs]
    | ref r =>
      obtain ⟨v, hv⟩ := (alookup_isSome_iff m r).2 (h r (List.mem_cons_self _ _))
      rw [collapse, hv, ih ht]
      have hcs : collapseSpec m (CItem.ref r :: t) = v ++ collapseSpec m t := by
        simp [collapseSpec, hv]
      rw [hcs]

lemma collapseSpec_append (m m2 : List (String × List String)) (items : List CItem)
    (h : ∀ s, CItem.ref s ∈ items → s ∈ m.map Prod.fst) :
    collapseSpec (m ++ m2) items = collapseSpec m items := by
  unfold collapseSpec
  induction items with
  | nil => rfl
  | cons it t ih =>
    have ht : ∀ s, CItem.ref s ∈ t → s ∈ m.map Prod.fst :=
      fun s hs => h s (List.mem_cons_of_mem _ hs)
    cases it with
    | config c =>
      simpa using ih ht
    | ref r =>
      obtain ⟨v, hv⟩ := (alookup_isSome_iff m r).2 (h r (List.mem_cons_self _ _))
      simp [hv, alookup_append_left m m2 r v hv, ih ht]

/-! #### Parsing facts: every reference in a parsed configSet was checked
against the configSet names, and parsing preserves the key list -/

mutual

theorem processConfigList_refs (mk cs : List String) (e : ConfigExpr) (res : List CItem)
    (h : processConfigList mk cs e = .ok res) :
    ∀ s, CItem.ref s ∈ res → s ∈ cs := by
  cases e with
  | name s0 =>
    rw [processConfigList] at h
    by_cases hm : s0 ∈ mk
    · rw [if_pos hm] at h
      injection h with h2
      subst h2
      intro s hs
      simp at hs
    · rw [if_neg hm] at h
      cases h
  | refSet s0 =>
    rw [processConfigList] at h
    by_cases hm : s0 ∈ cs
    · rw [if_pos hm] at h
      injection h with h2
      subst h2
      intro s hs
      simp at hs
      subst hs
      exact hm
    · rw [if_neg hm] at h
      cases h
  | listE l =>
    rw [processConfigList] at h
    exact processConfigListMany_refs mk cs l res h

theorem processConfigListMany_refs (mk cs : List String) (l : List ConfigExpr)
    (res : List CItem) (h : processConfigListMany mk cs l = .ok res) :
    ∀ s, CItem.ref s ∈ res → s ∈ cs := by
  cases l with
  | nil =>
    rw [processConfigListMany] at h
    injection h with h2
    subst h2
    intro s hs
    simp at hs
  | cons e t =>
    rw [processConfigListMany] at h
    cases he : processConfigList mk cs e with
    | error er => rw [he] at h; cases h
    | ok a =>
      rw [he] at h
      cases ht : processConfigListMany mk cs t with
      | error er => rw [ht] at h; cases h
      | ok b =>
        rw [ht] at h
        injection h with h2
        subst h2
        intro s hs
        rcases List.mem_append.1 hs with hs | hs
        · exact processConfigList_refs mk cs e a he s hs
        · exact processConfigListMany_refs mk cs t b ht s hs

end

theorem parseConfigSets_ok (mk cs : List String) :
    ∀ (csDef : List (String × ConfigExpr)) (parsed : List (String × List CItem)),
    parseConfigSets mk cs csDef = .ok parsed →
    parsed.map Prod.fst = csDef.map Prod.fst ∧
    ∀ p ∈ parsed, ∀ s, CItem.ref s ∈ p.2 → s ∈ cs := by
  intro csDef
  induction csDef with
  | nil =>
    intro parsed h
    rw [parseConfigSets] at h
    injection h with h2
    subst h2
    exact ⟨rfl, by simp⟩
  | cons p t ih =>
    intro parsed h
    rcases p with ⟨n, e⟩
    rw [parseConfigSets] at h
    cases he : processConfigList mk cs e with
    | error er => rw [he] at h; cases h
    | ok defs =>
      rw [he] at h
      cases ht : parseConfigSets mk cs t with
      | error er => rw [ht] at h; cases h
      | ok rest =>
        rw [ht] at h
        injection h with h2
        subst h2
        obtain ⟨hk, hr⟩ := ih rest ht
        refine ⟨by simp [hk], ?_⟩
        intro q hq s hs
        rcases List.mem_cons.1 hq with hq | hq
        · subst hq
          exact processConfigList_refs mk cs e defs he s hs
        · exact hr q hq s hs

/-! #### Characterization of the graph built by the first loop of
`_processConfigSetsDefinition` -/

lemma buildGraph_foldl_roots (parsed : List (String × List CItem)) :
    ∀ g : GraphState,
    (parsed.foldl buildGraphStep g).roots
      = g.roots ++ (parsed.filter (fun p => dependenciesOf p.2 = [])).map Prod.fst := by
  induction parsed with
  | nil => intro g; simp
  | cons p t ih =>
    intro g
    rw [List.foldl_cons, ih]
    rw [buildGraphStep]
    by_cases hd : dependenciesOf p.2 = []
    · rw [if_pos hd]
      simp [List.filter_cons, hd]
    · rw [if_neg hd]
      simp [List.filter_cons, hd]

lemma buildGraph_foldl_depTree (parsed : List (String × List CItem)) :
    ∀ g : GraphState,
    (parsed.foldl buildGraphStep g).depTree
      = g.depTree ++ (parsed.filter (fun p => ¬dependenciesOf p.2 = [])).map
          (fun p => (p.1, dependenciesOf p.2)) := by
  induction parsed with
  | nil => intro g; simp
  | cons p t ih =>
    intro g
    rw [List.foldl_cons, ih]
    rw [buildGraphStep]
    by_cases hd : dependenciesOf p.2 = []
    · rw [if_pos hd]
      simp [List.filter_cons, hd]
    · rw [if_neg hd]
      simp [List.filter_cons, hd]

lemma alookup_head {α : Type} (p : String × α) (t : List (String × α)) :
    alookup (p :: t) p.1 = some p.2 := by
  rcases p with ⟨k, v⟩
  simp [alookup]

lemma buildGraphStep_revTree (g : GraphState) (p : String × List CItem) :
    (buildGraphStep g p).revTree =
      if dependenciesOf p.2 = [] then g.revTree
      else (dependenciesOf p.2).foldl (addRevEntry p.1) g.revTree := by
  rw [buildGraphStep]
  by_cases hd : dependenciesOf p.2 = [] <;> simp [hd]

lemma addRevEntry_lookup (name : String) (rt : List (String × List String)) (dep d : String) :
    alookup (addRevEntry name rt dep) d =
      if dep = d then
        some (if name ∈ (alookup rt dep).getD [] then (alookup rt dep).getD []
              else (alookup rt dep).getD [] ++ [name])
      else alookup rt d := by
  rw [addRevEntry]
  cases h : alookup rt dep with
  | some l =>
    rw [alookup_alset]
    by_cases hd : dep = d
    · rw [if_pos hd, if_pos hd]
      simp
    · rw [if_neg hd, if_neg hd]
  | none =>
    by_cases hd : dep = d
    · subst hd
      rw [if_pos rfl, alookup_append_right rt _ dep h]
      simp [alookup]
    · rw [if_neg hd]
      cases h2 : alookup rt d with
      | some v => exact alookup_append_left rt _ d v h2
      | none =>
        rw [alookup_append_right rt _ d h2]
        simp [alookup, hd, h2]

lemma addRevEntry_mem (name : String) (rt : List (String × List String)) (dep d n : String) :
    n ∈ (alookup (addRevEntry name rt dep) d).getD []
      ↔ n ∈ (alookup rt d).getD [] ∨ (dep = d ∧ n = name) := by
  rw [addRevEntry_lookup]
  by_cases hd : dep = d
  · subst hd
    rw [if_pos rfl]
    by_cases hn : name ∈ (alookup rt dep).getD []
    · rw [if_pos hn]
      simp only [Option.getD_some, true_and]
      constructor
      · exact fun h => Or.inl h
      · rintro (h | h)
        · exact h
        · subst h; exact hn
    · rw [if_neg hn]
      simp
  · rw [if_neg hd]
    simp [hd]

lemma addRevEntry_nodup (name : String) (rt : List (String × List String)) (dep : String)
    (h : ∀ d, ((alookup rt d).getD []).Nodup) :
    ∀ d, ((alookup (addRevEntry name rt dep) d).getD []).Nodup := by
  intro d
  rw [addRevEntry_lookup]
  by_cases hd : dep = d
  · rw [if_pos hd]
    by_cases hn : name ∈ (alookup rt dep).getD []
    · rw [if_pos hn]
      simpa using h dep
    · rw [if_neg hn]
      simp only [Option.getD_some]
      simp [List.nodup_append, h dep, hn]
  · rw [if_neg hd]
    exact h d

lemma revFold_mem (name : String) :
    ∀ (ds : List String) (rt : List (String × List String)) (d n : String),
    n ∈ (alookup (ds.foldl (addRevEntry name) rt) d).getD []
      ↔ n ∈ (alookup rt d).getD [] ∨ (d ∈ ds ∧ n = name) := by
  intro ds
  induction ds with
  | nil => intro rt d n; simp
  | cons dep t ih =>
    intro rt d n
    rw [List.foldl_cons, ih, addRevEntry_mem]
    constructor
    · rintro ((h | ⟨h1, h2⟩) | ⟨h1, h2⟩)
      · exact Or.inl h
      · exact Or.inr ⟨by simp [h1], h2⟩
      · exact Or.inr ⟨List.mem_cons_of_mem _ h1, h2⟩
    · rintro (h | ⟨h1, h2⟩)
      · exact Or.inl (Or.inl h)
      · rcases List.mem_cons.1 h1 with h1 | h1
        · exact Or.inl (Or.inr ⟨h1.symm, h2⟩)
        · exact Or.inr ⟨h1, h2⟩

lemma revFold_nodup (name : String) :
    ∀ (ds : List String) (rt : List (String × List String)),
    (∀ d, ((alookup rt d).getD []).Nodup) →
    ∀ d, ((alookup (ds.foldl (addRevEntry name) rt) d).getD []).Nodup := by
  intro ds
  induction ds with
  | nil => intro rt h; exact h
  | cons dep t ih =>
    intro rt h
    exact ih (addRevEntry name rt dep) (addRevEntry_nodup name rt dep h)

lemma buildGraph_foldl_rev (parsed : List (String × List CItem)) :
    ∀ (g : GraphState) (d n : String),
    n ∈ (alookup (parsed.foldl buildGraphStep g).revTree d).getD []
      ↔ n ∈ (alookup g.revTree d).getD []
        ∨ ∃ p ∈ parsed, p.1 = n ∧ d ∈ dependenciesOf p.2 := by
  induction parsed with
  | nil => intro g d n; simp
  | cons p t ih =>
    intro g d n
    rw [List.foldl_cons, ih, buildGraphStep_revTree]
    by_cases hd : dependenciesOf p.2 = []
    · rw [if_pos hd]
      constructor
      · rintro (h | ⟨q, hq, h1, h2⟩)
        · exact Or.inl h
        · exact Or.inr ⟨q, List.mem_cons_of_mem _ hq, h1, h2⟩
      · rintro (h | ⟨q, hq, h1, h2⟩)
        · exact Or.inl h
        · rcases List.mem_cons.1 hq with hq | hq
          · subst hq
            rw [hd] at h2
            simp at h2
          · exact Or.inr ⟨q, hq, h1, h2⟩
    · rw [if_neg hd, revFold_mem]
      constructor
      · rintro ((h | ⟨h1, h2⟩) | ⟨q, hq, h1, h2⟩)
        · exact Or.inl h
        · exact Or.inr ⟨p, List.mem_cons_self _ _, h2.symm, h1⟩
        · exact Or.inr ⟨q, List.mem_cons_of_mem _ hq, h1, h2⟩
      · rintro (h | ⟨q, hq, h1, h2⟩)
        · exact Or.inl (Or.inl h)
        · rcases List.mem_cons.1 hq with hq | hq
          · subst hq
            exact Or.inl (Or.inr ⟨h2, h1.symm⟩)
          · exact Or.inr ⟨q, hq, h1, h2⟩

lemma buildGraph_foldl_rev_nodup (parsed : List (String × List CItem)) :
    ∀ g : GraphState, (∀ d, ((alookup g.revTree d).getD []).Nodup) →
    ∀ d, ((alookup (parsed.foldl buildGraphStep g).revTree d).getD []).Nodup := by
  induction parsed with
  | nil => intro g h; exact h
  | cons p t ih =>
    intro g h
    rw [List.foldl_cons]
    apply ih
    rw [buildGraphStep_revTree]
    by_cases hd : dependenciesOf p.2 = []
    · rw [if_pos hd]; exact h
    · rw [if_neg hd]; exact revFold_nodup p.1 _ g.revTree h

lemma depsFun_eq (parsed : List (String × List CItem)) (n : String) (defs : List CItem)
    (h : alookup parsed n = some defs) : depsFun parsed n = dependenciesOf defs := by
  rw [depsFun, h]
  rfl

lemma depsFun_not_mem (parsed : List (String × List CItem)) (n : String)
    (h : n ∉ parsed.map Prod.fst) : depsFun parsed n = [] := by
  rw [depsFun, (alookup_eq_none_iff parsed n).2 h]
  rfl

lemma buildGraph_roots_char (parsed : List (String × List CItem))
    (hnd : (parsed.map Prod.fst).Nodup) (n : String) :
    n ∈ (buildGraph parsed).roots ↔ n ∈ parsed.map Prod.fst ∧ depsFun parsed n = [] := by
  rw [buildGraph, buildGraph_foldl_roots]
  simp only [List.nil_append]
  constructor
  · intro h
    obtain ⟨p, hp, hpn⟩ := List.mem_map.1 h
    obtain ⟨hp1, hp2⟩ := List.mem_filter.1 hp
    subst hpn
    have hal : alookup parsed p.1 = some p.2 :=
      (alookup_mem_of_nodup parsed p.1 p.2 hnd).1 (by simpa using hp1)
    refine ⟨List.mem_map_of_mem Prod.fst hp1, ?_⟩
    rw [depsFun_eq parsed p.1 p.2 hal]
    simpa using hp2
  · rintro ⟨h1, h2⟩
    obtain ⟨defs, hdefs⟩ := (alookup_isSome_iff parsed n).2 h1
    have hmem : (n, defs) ∈ parsed := (alookup_mem_of_nodup parsed n defs hnd).2 hdefs
    rw [depsFun_eq parsed n defs hdefs] at h2
    refine List.mem_map.2 ⟨(n, defs), List.mem_filter.2 ⟨hmem, by simpa using h2⟩, rfl⟩

lemma buildGraph_roots_nodup (parsed : List (String × List CItem))
    (hnd : (parsed.map Prod.fst).Nodup) : (buildGraph parsed).roots.Nodup := by
  rw [buildGraph, buildGraph_foldl_roots]
  simp only [List.nil_append]
  exact hnd.sublist ((List.filter_sublist parsed).map Prod.fst)

lemma dt0_keys (t : List (String × List CItem)) :
    ((t.filter (fun p => ¬dependenciesOf p.2 = [])).map
        (fun p => (p.1, dependenciesOf p.2))).map Prod.fst
      = (t.filter (fun p => ¬dependenciesOf p.2 = [])).map Prod.fst := by
  rw [List.map_map]
  rfl

lemma buildGraph_dt_keys_nodup (parsed : List (String × List CItem))
    (hnd : (parsed.map Prod.fst).Nodup) :
    ((buildGraph parsed).depTree.map Prod.fst).Nodup := by
  rw [buildGraph, buildGraph_foldl_depTree]
  simp only [List.nil_append]
  rw [dt0_keys]
  exact hnd.sublist ((List.filter_sublist parsed).map Prod.fst)

lemma dt0_lookup (t : List (String × List CItem)) (n : String)
    (hnd : (t.map Prod.fst).Nodup) :
    alookup ((t.filter (fun p => ¬dependenciesOf p.2 = [])).map
        (fun p => (p.1, dependenciesOf p.2))) n
      = if n ∈ t.map Prod.fst ∧ depsFun t n ≠ []
        then some (depsFun t n) else none := by
  induction t with
  | nil => simp [alookup]
  | cons p t ih =>
    rcases p with ⟨k, pd⟩
    simp only [List.map_cons, List.nodup_cons] at hnd
    by_cases hp : n = k
    · subst hp
      have hdeq : depsFun ((n, pd) :: t) n = dependenciesOf pd := by
        rw [depsFun]
        simp [alookup]
      by_cases hd : dependenciesOf pd = []
      · rw [List.filter_cons, if_neg (by simp [hd])]
        rw [(alookup_eq_none_iff _ n).2, if_neg]
        · rintro ⟨-, h2⟩
          exact h2 (hdeq.trans hd)
        · rw [dt0_keys]
          intro hc
          obtain ⟨q, hq, hq1⟩ := List.mem_map.1 hc
          exact hnd.1 (hq1 ▸ List.mem_map_of_mem Prod.fst (List.mem_of_mem_filter hq))
      · rw [List.filter_cons, if_pos (by simp [hd]), List.map_cons]
        rw [if_pos ⟨by simp, by rw [hdeq]; exact hd⟩, hdeq]
        simp [alookup]
    · have hskip : depsFun ((k, pd) :: t) n = depsFun t n := by
        rw [depsFun, depsFun, alookup]
        rw [if_neg (fun hc => hp hc.symm)]
      have halign :
          (if n ∈ t.map Prod.fst ∧ depsFun t n ≠ []
            then some (depsFun t n) else none)
          = if n ∈ ((k, pd) :: t).map Prod.fst ∧ depsFun ((k, pd) :: t) n ≠ []
            then some (depsFun ((k, pd) :: t) n) else none := by
        rw [hskip]
        by_cases hcond : n ∈ t.map Prod.fst ∧ depsFun t n ≠ []
        · rw [if_pos hcond, if_pos ⟨by simp [hcond.1], hcond.2⟩]
        · rw [if_neg hcond, if_neg]
          rintro ⟨h1, h2⟩
          rw [List.map_cons] at h1
          rcases List.mem_cons.1 h1 with h1 | h1
          · exact hp h1
          · exact hcond ⟨h1, h2⟩
      rw [← halign]
      by_cases hd : dependenciesOf pd = []
      · rw [List.filter_cons, if_neg (by simp [hd]), ih hnd.2]
      · rw [List.filter_cons, if_pos (by simp [hd]), List.map_cons, alookup,
          if_neg (fun hc => hp hc.symm), ih hnd.2]

lemma buildGraph_dt_lookup (parsed : List (String × List CItem))
    (hnd : (parsed.map Prod.fst).Nodup) (n : String) :
    alookup (buildGraph parsed).depTree n =
      if n ∈ parsed.map Prod.fst ∧ depsFun parsed n ≠ []
      then some (depsFun parsed n) else none := by
  rw [buildGraph, buildGraph_foldl_depTree]
  simp only [List.nil_append]
  exact dt0_lookup parsed n hnd

lemma buildGraph_rev_char (parsed : List (String × List CItem))
    (hnd : (parsed.map Prod.fst).Nodup) (d n : String) :
    n ∈ (alookup (buildGraph parsed).revTree d).getD []
      ↔ n ∈ parsed.map Prod.fst ∧ d ∈ depsFun parsed n := by
  rw [buildGraph, buildGraph_foldl_rev]
  constructor
  · rintro (h | ⟨q, hq, h1, h2⟩)
    · simp [alookup] at h
    · subst h1
      have hal : alookup parsed q.1 = some q.2 :=
        (alookup_mem_of_nodup parsed q.1 q.2 hnd).1 (by simpa using hq)
      exact ⟨List.mem_map_of_mem Prod.fst hq, by rw [depsFun_eq parsed q.1 q.2 hal]; exact h2⟩
  · rintro ⟨h1, h2⟩
    obtain ⟨defs, hdefs⟩ := (alookup_isSome_iff parsed n).2 h1
    rw [depsFun_eq parsed n defs hdefs] at h2
    exact Or.inr ⟨(n, defs), (alookup_mem_of_nodup parsed n defs hnd).2 hdefs, rfl, h2⟩

lemma buildGraph_rev_nodup (parsed : List (String × List CItem)) :
    ∀ d, ((alookup (buildGraph parsed).revTree d).getD []).Nodup := by
  rw [buildGraph]
  apply buildGraph_foldl_rev_nodup
  intro d
  simp [alookup]

/-! #### The dependent-update fold of the topological sort -/

lemma processDependent_foldl (r : String) :
    ∀ (L : List String) (dt : List (String × List String)) (rs : List String),
    L.Nodup → (dt.map Prod.fst).Nodup →
    (∀ n ∈ L, ∃ l, alookup dt n = some l) →
    (∀ n ∈ L, n ∉ rs) → rs.Nodup →
    (∀ n, n ∉ L → alookup (L.foldl (processDependent r) (dt, rs)).1 n = alookup dt n) ∧
    (∀ n ∈ L, ∀ l, alookup dt n = some l →
       alookup (L.foldl (processDependent r) (dt, rs)).1 n
         = if l.filter (· ≠ r) = [] then none else some (l.filter (· ≠ r))) ∧
    ((L.foldl (processDependent r) (dt, rs)).1.map Prod.fst).Nodup ∧
    (∀ x, x ∈ (L.foldl (processDependent r) (dt, rs)).2 ↔
       x ∈ rs ∨ (x ∈ L ∧ ∀ l, alookup dt x = some l → l.filter (· ≠ r) = [])) ∧
    (L.foldl (processDependent r) (dt, rs)).2.Nodup := by
  intro L
  induction L with
  | nil =>
    intro dt rs _ hdtn _ _ hrsn
    refine ⟨fun n _ => rfl, fun n hn => absurd hn (List.not_mem_nil n), hdtn, ?_, hrsn⟩
    intro x
    simp
  | cons n0 L2 ih =>
    intro dt rs hLnd hdtn hsome hdisj hrsn
    have hL2nd : L2.Nodup := (List.nodup_cons.1 hLnd).2
    have hn0L2 : n0 ∉ L2 := (List.nodup_cons.1 hLnd).1
    obtain ⟨l0, hl0⟩ := hsome n0 (List.mem_cons_self _ _)
    have hn0k : n0 ∈ dt.map Prod.fst := (alookup_isSome_iff dt n0).1 ⟨l0, hl0⟩
    by_cases hrem : l0.filter (· ≠ r) = []
    · have hstep : processDependent r (dt, rs) n0 = (alerase dt n0, rs ++ [n0]) := by
        rw [processDependent]
        simp only [hl0]
        rw [if_pos hrem]
      have hdt1n : ((alerase dt n0).map Prod.fst).Nodup := by
        rw [keys_alerase]
        exact hdtn.erase n0
      have hsome1 : ∀ n ∈ L2, ∃ l, alookup (alerase dt n0) n = some l := by
        intro n hn
        rw [alookup_alerase_ne dt n0 n (fun hc => hn0L2 (hc ▸ hn))]
        exact hsome n (List.mem_cons_of_mem _ hn)
      have hdisj1 : ∀ n ∈ L2, n ∉ rs ++ [n0] := by
        intro n hn hc
        rcases List.mem_append.1 hc with hc | hc
        · exact hdisj n (List.mem_cons_of_mem _ hn) hc
        · exact hn0L2 ((List.mem_singleton.1 hc) ▸ hn)
      have hrsn1 : (rs ++ [n0]).Nodup := by
        simp [List.nodup_append, hrsn, hdisj n0 (List.mem_cons_self _ _)]
      obtain ⟨ih1, ih2, ih3, ih4, ih5⟩ :=
        ih (alerase dt n0) (rs ++ [n0]) hL2nd hdt1n hsome1 hdisj1 hrsn1
      rw [List.foldl_cons, hstep]
      refine ⟨?_, ?_, ih3, ?_, ih5⟩
      · intro n hn
        have hn2 : n ∉ L2 := fun hc => hn (List.mem_cons_of_mem _ hc)
        have hnn0 : n ≠ n0 := fun hc => hn (hc ▸ List.mem_cons_self _ _)
        rw [ih1 n hn2, alookup_alerase_ne dt n0 n hnn0]
      · intro n hn l hl
        rcases List.mem_cons.1 hn with hn | hn
        · subst hn
          rw [hl0] at hl
          injection hl with hl
          subst hl
          rw [if_pos hrem, ih1 n hn0L2, alookup_alerase_self dt n hdtn]
        · have hnn0 : n ≠ n0 := fun hc => hn0L2 (hc ▸ hn)
          rw [ih2 n hn l (by rw [alookup_alerase_ne dt n0 n hnn0]; exact hl)]
      · intro x
        rw [ih4 x]
        constructor
        · rintro (hx | ⟨hx1, hx2⟩)
          · rcases List.mem_append.1 hx with hx | hx
            · exact Or.inl hx
            · have hx0 : x = n0 := List.mem_singleton.1 hx
              subst hx0
              refine Or.inr ⟨List.mem_cons_self _ _, ?_⟩
              intro l hl
              rw [hl0] at hl
              injection hl with hl
              subst hl
              exact hrem
          · have hxn0 : x ≠ n0 := fun hc => hn0L2 (hc ▸ hx1)
            refine Or.inr ⟨List.mem_cons_of_mem _ hx1, ?_⟩
            intro l hl
            exact hx2 l (by rw [alookup_alerase_ne dt n0 x hxn0]; exact hl)
        · rintro (hx | ⟨hx1, hx2⟩)
          · exact Or.inl (List.mem_append.2 (Or.inl hx))
          · rcases List.mem_cons.1 hx1 with hx1 | hx1
            · subst hx1
              exact Or.inl (List.mem_append.2 (Or.inr (List.mem_singleton.2 rfl)))
            · have hxn0 : x ≠ n0 := fun hc => hn0L2 (hc ▸ hx1)
              refine Or.inr ⟨hx1, ?_⟩
              intro l hl
              rw [alookup_alerase_ne dt n0 x hxn0] at hl
              exact hx2 l hl
    · have hstep : processDependent r (dt, rs) n0
          = (alset dt n0 (l0.filter (· ≠ r)), rs) := by
        rw [processDependent]
        simp only [hl0]
        rw [if_neg hrem]
      have hdt1k : (alset dt n0 (l0.filter (· ≠ r))).map Prod.fst = dt.map Prod.fst := by
        rw [keys_alset, if_pos hn0k]
      have hdt1n : ((alset dt n0 (l0.filter (· ≠ r))).map Prod.fst).Nodup := by
        rw [hdt1k]
        exact hdtn
      have hsome1 : ∀ n ∈ L2, ∃ l, alookup (alset dt n0 (l0.filter (· ≠ r))) n = some l := by
        intro n hn
        rw [alookup_alset, if_neg (show ¬n0 = n from fun hc => hn0L2 (hc ▸ hn))]
        exact hsome n (List.mem_cons_of_mem _ hn)
      have hdisj1 : ∀ n ∈ L2, n ∉ rs :=
        fun n hn => hdisj n (List.mem_cons_of_mem _ hn)
      obtain ⟨ih1, ih2, ih3, ih4, ih5⟩ :=
        ih (alset dt n0 (l0.filter (· ≠ r))) rs hL2nd hdt1n hsome1 hdisj1 hrsn
      rw [List.foldl_cons, hstep]
      refine ⟨?_, ?_, ih3, ?_, ih5⟩
      · intro n hn
        have hn2 : n ∉ L2 := fun hc => hn (List.mem_cons_of_mem _ hc)
        have hnn0 : n ≠ n0 := fun hc => hn (hc ▸ List.mem_cons_self _ _)
        rw [ih1 n hn2, alookup_alset, if_neg (show ¬n0 = n from fun hc => hnn0 hc.symm)]
      · intro n hn l hl
        rcases List.mem_cons.1 hn with hn | hn
        · subst hn
          rw [hl0] at hl
          injection hl with hl
          subst hl
          rw [if_neg hrem, ih1 n hn0L2, alookup_alset, if_pos rfl]
        · have hnn0 : n ≠ n0 := fun hc => hn0L2 (hc ▸ hn)
          rw [ih2 n hn l (by rw [alookup_alset, if_neg (show ¬n0 = n from fun hc => hnn0 hc.symm)]; exact hl)]
      · intro x
        rw [ih4 x]
        constructor
        · rintro (hx | ⟨hx1, hx2⟩)
          · exact Or.inl hx
          · have hxn0 : x ≠ n0 := fun hc => hn0L2 (hc ▸ hx1)
            refine Or.inr ⟨List.mem_cons_of_mem _ hx1, ?_⟩
            intro l hl
            exact hx2 l (by rw [alookup_alset, if_neg (show ¬n0 = x from fun hc => hxn0 hc.symm)]; exact hl)
        · rintro (hx | ⟨hx1, hx2⟩)
          · exact Or.inl hx
          · rcases List.mem_cons.1 hx1 with hx1 | hx1
            · subst hx1
              exact absurd (hx2 l0 hl0) hrem
            · have hxn0 : x ≠ n0 := fun hc => hn0L2 (hc ▸ hx1)
              refine Or.inr ⟨hx1, ?_⟩
              intro l hl
              rw [alookup_alset, if_neg (show ¬n0 = x from fun hc => hxn0 hc.symm)] at hl
              exact hx2 l hl

/-! #### The loop invariant of the topological sort -/

/-- Invariant of the Kahn loop relative to the parsed configSets `raw`:
`acc` holds the already-collapsed sets (whose dependencies are all
collapsed, with values given by the element-wise specification), `rs` the
current roots, `dt` the pending dependency entries and `rt` the untouched
reverse edges. -/
structure KahnInv (raw : List (String × List CItem)) (rs : List String)
    (dt rt acc : List (String × List String)) : Prop where
  accSub : ∀ n ∈ acc.map Prod.fst, n ∈ raw.map Prod.fst
  accNodup : (acc.map Prod.fst).Nodup
  accDeps : ∀ n ∈ acc.map Prod.fst, ∀ d ∈ depsFun raw n, d ∈ acc.map Prod.fst
  accVal : ∀ n ∈ acc.map Prod.fst,
    alookup acc n = some (collapseSpec acc ((alookup raw n).getD []))
  accGrounded : ∀ n ∈ acc.map Prod.fst, Grounded (depsFun raw) n
  rootsNodup : rs.Nodup
  rootsChar : ∀ n, n ∈ rs ↔
    n ∈ raw.map Prod.fst ∧ n ∉ acc.map Prod.fst ∧
    ∀ d ∈ depsFun raw n, d ∈ acc.map Prod.fst
  dtKeysNodup : (dt.map Prod.fst).Nodup
  dtSome : ∀ n, n ∈ raw.map Prod.fst → n ∉ acc.map Prod.fst →
    ¬(∀ d ∈ depsFun raw n, d ∈ acc.map Prod.fst) →
    ∃ l, alookup dt n = some l ∧
      ∀ d, d ∈ l ↔ d ∈ depsFun raw n ∧ d ∉ acc.map Prod.fst
  dtNone : ∀ n, (n ∉ raw.map Prod.fst ∨ n ∈ acc.map Prod.fst ∨
      (∀ d ∈ depsFun raw n, d ∈ acc.map Prod.fst)) →
    alookup dt n = none
  rtMem : ∀ d, d ∉ acc.map Prod.fst → ∀ n,
    (n ∈ (alookup rt d).getD [] ↔ n ∈ raw.map Prod.fst ∧ d ∈ depsFun raw n)
  rtNodup : ∀ d, d ∉ acc.map Prod.fst → ((alookup rt d).getD []).Nodup

lemma nodup_length_le (l1 l2 : List String) (h1 : l1.Nodup)
    (hsub : ∀ x ∈ l1, x ∈ l2) : l1.length ≤ l2.length := by
  calc l1.length = l1.toFinset.card := (List.toFinset_card_of_nodup h1).symm
    _ ≤ l2.toFinset.card :=
        Finset.card_le_card (fun x hx => List.mem_toFinset.2 (hsub x (List.mem_toFinset.1 hx)))
    _ ≤ l2.length := l2.toFinset_card_le

/-- With no roots left, no still-uncollapsed configSet can be grounded:
the topological sort is stuck precisely on an ungrounded remainder. -/
lemma stuck_not_grounded (raw : List (String × List CItem))
    (hD : ∀ n, ∀ d ∈ depsFun raw n, d ∈ raw.map Prod.fst)
    (A : List String)
    (hroots : ∀ n, ¬(n ∈ raw.map Prod.fst ∧ n ∉ A ∧ ∀ d ∈ depsFun raw n, d ∈ A)) :
    ∀ n, Grounded (depsFun raw) n → n ∈ raw.map Prod.fst → n ∉ A → False := by
  intro n hg
  induction hg with
  | intro m hgd ih =>
    intro hmK hmA
    have hne : ¬ ∀ d ∈ depsFun raw m, d ∈ A := fun hall => hroots m ⟨hmK, hmA, hall⟩
    push_neg at hne
    obtain ⟨d, hdm, hdA⟩ := hne
    exact ih d hdm (hD m d hdm) hdA

lemma DepPath.snoc {deps : String → List String} {a b c : String}
    (h : DepPath deps a b) (hc : c ∈ deps b) : DepPath deps a c := by
  induction h with
  | single x y hy => exact DepPath.cons x y c hy (DepPath.single y c hc)
  | cons x y z hy _ ih => exact DepPath.cons x y c hy (ih hc)

/-- A grounded node admits no cycle through itself. -/
lemma grounded_not_cycle {deps : String → List String} {n : String}
    (hg : Grounded deps n) : ¬ DepPath deps n n := by
  induction hg with
  | intro m hgd ih =>
    intro hp
    cases hp with
    | single a b h => exact ih m h (DepPath.single m m h)
    | cons a b c h p => exact ih b h (p.snoc h)

/-- A nonempty acyclic (all-grounded) graph has a dependency-free node. -/
lemma grounded_has_root (raw : List (String × List CItem))
    (hD : ∀ n, ∀ d ∈ depsFun raw n, d ∈ raw.map Prod.fst) :
    ∀ n, Grounded (depsFun raw) n → n ∈ raw.map Prod.fst →
    ∃ m ∈ raw.map Prod.fst, depsFun raw m = [] := by
  intro n hg
  induction hg with
  | intro m hgd ih =>
    intro hmK
    cases he : depsFun raw m with
    | nil => exact ⟨m, hmK, he⟩
    | cons d t =>
      have hd : d ∈ depsFun raw m := by rw [he]; exact List.mem_cons_self _ _
      exact ih d hd (hD m d hd)

/-- Outcome of the topological-sort loop: under the invariant and with
enough fuel, the loop either collapses every configSet (each final entry
given by the element-wise specification, every set grounded) or raises
the circular-dependency error, in which case some configSet is
ungrounded. -/
lemma kahnLoop_spec (raw : List (String × List CItem))
    (hK : (raw.map Prod.fst).Nodup)
    (hD : ∀ n, ∀ d ∈ depsFun raw n, d ∈ raw.map Prod.fst) :
    ∀ (fuel : Nat) (rs : List String) (dt rt acc : List (String × List String)),
    KahnInv raw rs dt rt acc →
    raw.length - acc.length < fuel →
    (∃ m, kahnLoop raw fuel rs dt rt acc = .ok m ∧
       ∀ n ∈ raw.map Prod.fst,
         alookup m n = some (collapseSpec m ((alookup raw n).getD [])) ∧
         Grounded (depsFun raw) n)
    ∨ (∃ msg n, kahnLoop raw fuel rs dt rt acc
          = .error (.circularConfigSetDependency msg) ∧
        n ∈ raw.map Prod.fst ∧ ¬ Grounded (depsFun raw) n) := by
  intro fuel
  induction fuel with
  | zero =>
    intro rs dt rt acc _ hfuel
    omega
  | succ fuel ih =>
    intro rs dt rt acc inv hfuel
    cases rs with
    | nil =>
      by_cases hdt : dt = []
      · left
        refine ⟨acc, ?_, ?_⟩
        · rw [kahnLoop, if_pos hdt]
        · intro n hn
          have hnA : n ∈ acc.map Prod.fst := by
            by_contra hnA
            by_cases hsub : ∀ d ∈ depsFun raw n, d ∈ acc.map Prod.fst
            · exact absurd ((inv.rootsChar n).2 ⟨hn, hnA, hsub⟩) (List.not_mem_nil n)
            · obtain ⟨l, hl, -⟩ := inv.dtSome n hn hnA hsub
              rw [hdt] at hl
              simp [alookup] at hl
          exact ⟨inv.accVal n hnA, inv.accGrounded n hnA⟩
      · right
        cases dt with
        | nil => exact absurd rfl hdt
        | cons p t =>
          have hp : alookup (p :: t) p.1 = some p.2 := alookup_head p t
          have hfacts : p.1 ∈ raw.map Prod.fst ∧ p.1 ∉ acc.map Prod.fst ∧
              ¬ ∀ d ∈ depsFun raw p.1, d ∈ acc.map Prod.fst := by
            by_contra hc
            have hdisj : p.1 ∉ raw.map Prod.fst ∨ p.1 ∈ acc.map Prod.fst ∨
                (∀ d ∈ depsFun raw p.1, d ∈ acc.map Prod.fst) := by
              tauto
            rw [inv.dtNone p.1 hdisj] at hp
            cases hp
          refine ⟨"At least one circular dependency detected; this is not allowed.",
            p.1, ?_, hfacts.1, ?_⟩
          · rw [kahnLoop, if_neg hdt]
          · intro hg
            exact stuck_not_grounded raw hD (acc.map Prod.fst)
              (fun n hn => absurd ((inv.rootsChar n).2 hn) (List.not_mem_nil n))
              p.1 hg hfacts.1 hfacts.2.1
    | cons r rs2 =>
      obtain ⟨hrK, hrA, hrdeps⟩ := (inv.rootsChar r).1 (List.mem_cons_self _ _)
      obtain ⟨defs, hdefs⟩ := (alookup_isSome_iff raw r).2 hrK
      have hdf : depsFun raw r = dependenciesOf defs := depsFun_eq raw r defs hdefs
      have hrefs : ∀ s, CItem.ref s ∈ defs → s ∈ acc.map Prod.fst := by
        intro s hs
        apply hrdeps
        rw [hdf, mem_dependenciesOf]
        exact hs
      have hcol : collapse acc defs = .ok (collapseSpec acc defs) := collapse_ok acc defs hrefs
      have hLmem : ∀ n, n ∈ (alookup rt r).getD [] ↔
          n ∈ raw.map Prod.fst ∧ r ∈ depsFun raw n := inv.rtMem r hrA
      have hLnd : ((alookup rt r).getD []).Nodup := inv.rtNodup r hrA
      have hLnA : ∀ n ∈ (alookup rt r).getD [], n ∉ acc.map Prod.fst := by
        intro n hn hc
        exact hrA (inv.accDeps n hc r ((hLmem n).1 hn).2)
      have hLnr : ∀ n ∈ (alookup rt r).getD [], n ≠ r := by
        intro n hn hc
        exact hrA (hrdeps r (hc ▸ ((hLmem n).1 hn).2))
      have hLnrs : ∀ n ∈ (alookup rt r).getD [], n ∉ rs2 := by
        intro n hn hc
        exact hrA (((inv.rootsChar n).1 (List.mem_cons_of_mem _ hc)).2.2 r ((hLmem n).1 hn).2)
      have hLsome : ∀ n ∈ (alookup rt r).getD [], ∃ l, alookup dt n = some l := by
        intro n hn
        obtain ⟨hnK, hrn⟩ := (hLmem n).1 hn
        obtain ⟨l, hl, -⟩ := inv.dtSome n hnK (hLnA n hn) (fun hall => hrA (hall r hrn))
        exact ⟨l, hl⟩
      have hrs2nd : rs2.Nodup := (List.nodup_cons.1 inv.rootsNodup).2
      have hrrs2 : r ∉ rs2 := (List.nodup_cons.1 inv.rootsNodup).1
      obtain ⟨f1, f2, f3, f4, f5⟩ :=
        processDependent_foldl r ((alookup rt r).getD []) dt rs2
          hLnd inv.dtKeysNodup hLsome hLnrs hrs2nd
      have hmemA2 : ∀ x, x ∈ (acc ++ [(r, collapseSpec acc defs)]).map Prod.fst ↔
          x ∈ acc.map Prod.fst ∨ x = r := by
        intro x
        simp
      have haccN : alookup acc r = none := (alookup_eq_none_iff acc r).2 hrA
      -- the new invariant
      have inv2 : KahnInv raw
          (((alookup rt r).getD []).foldl (processDependent r) (dt, rs2)).2
          (((alookup rt r).getD []).foldl (processDependent r) (dt, rs2)).1
          (alerase rt r) (acc ++ [(r, collapseSpec acc defs)]) := by
        refine ⟨?_, ?_, ?_, ?_, ?_, ?_, ?_, ?_, ?_, ?_, ?_, ?_⟩
        · -- accSub
          intro n hn
          rcases (hmemA2 n).1 hn with hn | hn
          · exact inv.accSub n hn
          · exact hn ▸ hrK
        · -- accNodup
          simp [List.nodup_append, inv.accNodup, hrA]
        · -- accDeps
          intro n hn d hd
          rcases (hmemA2 n).1 hn with hn | hn
          · exact (hmemA2 d).2 (Or.inl (inv.accDeps n hn d hd))
          · subst hn
            exact (hmemA2 d).2 (Or.inl (hrdeps d hd))
        · -- accVal
          intro n hn
          rcases (hmemA2 n).1 hn with hn | hn
          · have hrefsn : ∀ s, CItem.ref s ∈ (alookup raw n).getD [] → s ∈ acc.map Prod.fst := by
              intro s hs
              apply inv.accDeps n hn
              rw [depsFun]
              exact (mem_dependenciesOf _ s).2 hs
            rw [alookup_append_left acc _ n _ (inv.accVal n hn),
              collapseSpec_append acc _ _ hrefsn]
          · subst hn
            have hrefsr : ∀ s, CItem.ref s ∈ (alookup raw n).getD [] → s ∈ acc.map Prod.fst := by
              intro s hs
              rw [hdefs] at hs
              exact hrefs s hs
            rw [alookup_append_right acc _ n haccN,
              collapseSpec_append acc _ _ hrefsr, hdefs]
            simp [alookup]
        · -- accGrounded
          intro n hn
          rcases (hmemA2 n).1 hn with hn | hn
          · exact inv.accGrounded n hn
          · subst hn
            exact Grounded.intro n (fun d hd => inv.accGrounded d (hrdeps d hd))
        · -- rootsNodup
          exact f5
        · -- rootsChar
          intro n
          rw [f4 n]
          constructor
          · rintro (hn | ⟨hnL, hcond⟩)
            · obtain ⟨h1, h2, h3⟩ := (inv.rootsChar n).1 (List.mem_cons_of_mem _ hn)
              have hnr : n ≠ r := fun hc => hrrs2 (hc ▸ hn)
              refine ⟨h1, ?_, fun d hd => (hmemA2 d).2 (Or.inl (h3 d hd))⟩
              intro hc
              rcases (hmemA2 n).1 hc with hc | hc
              · exact h2 hc
              · exact hnr hc
            · obtain ⟨hnK, hrn⟩ := (hLmem n).1 hnL
              obtain ⟨l, hl, hlmem⟩ :=
                inv.dtSome n hnK (hLnA n hnL) (fun hall => hrA (hall r hrn))
              have hfil := hcond l hl
              refine ⟨hnK, ?_, ?_⟩
              · intro hc
                rcases (hmemA2 n).1 hc with hc | hc
                · exact hLnA n hnL hc
                · exact hLnr n hnL hc
              · intro d hd
                by_cases hdA : d ∈ acc.map Prod.fst
                · exact (hmemA2 d).2 (Or.inl hdA)
                · have hdl : d ∈ l := (hlmem d).2 ⟨hd, hdA⟩
                  have hdr : d = r := by
                    by_contra hdr
                    have hmemf : d ∈ l.filter (· ≠ r) :=
                      List.mem_filter.2 ⟨hdl, by simp [hdr]⟩
                    rw [hfil] at hmemf
                    exact absurd hmemf (List.not_mem_nil d)
                  exact (hmemA2 d).2 (Or.inr hdr)
          · rintro ⟨hnK, hnA2, hsub2⟩
            have hnA : n ∉ acc.map Prod.fst := fun hc => hnA2 ((hmemA2 n).2 (Or.inl hc))
            have hnr : n ≠ r := fun hc => hnA2 ((hmemA2 n).2 (Or.inr hc))
            by_cases hsub : ∀ d ∈ depsFun raw n, d ∈ acc.map Prod.fst
            · have hmem := (inv.rootsChar n).2 ⟨hnK, hnA, hsub⟩
              rcases List.mem_cons.1 hmem with hc | hc
              · exact absurd hc hnr
              · exact Or.inl hc
            · push_neg at hsub
              obtain ⟨d, hd, hdA⟩ := hsub
              have hdr : d = r := by
                rcases (hmemA2 d).1 (hsub2 d hd) with hc | hc
                · exact absurd hc hdA
                · exact hc
              subst hdr
              have hnL : n ∈ (alookup rt d).getD [] := (hLmem n).2 ⟨hnK, hd⟩
              refine Or.inr ⟨hnL, ?_⟩
              intro l hl
              obtain ⟨l2, hl2, hlmem⟩ := inv.dtSome n hnK hnA (fun hall => hdA (hall d hd))
              rw [hl2] at hl
              injection hl with hl
              subst hl
              rw [List.filter_eq_nil]
              intro a ha
              obtain ⟨haD, haA⟩ := (hlmem a).1 ha
              rcases (hmemA2 a).1 (hsub2 a haD) with hc | hc
              · exact absurd hc haA
              · simp [hc]
        · -- dtKeysNodup
          exact f3
        · -- dtSome
          intro n hnK hnA2 hnsub2
          have hnA : n ∉ acc.map Prod.fst := fun hc => hnA2 ((hmemA2 n).2 (Or.inl hc))
          have hnsub : ¬ ∀ d ∈ depsFun raw n, d ∈ acc.map Prod.fst :=
            fun hall => hnsub2 (fun d hd => (hmemA2 d).2 (Or.inl (hall d hd)))
          obtain ⟨l, hl, hlmem⟩ := inv.dtSome n hnK hnA hnsub
          by_cases hnL : n ∈ (alookup rt r).getD []
          · by_cases hfil : l.filter (· ≠ r) = []
            · exfalso
              apply hnsub2
              intro d hd
              by_cases hdA : d ∈ acc.map Prod.fst
              · exact (hmemA2 d).2 (Or.inl hdA)
              · have hdl : d ∈ l := (hlmem d).2 ⟨hd, hdA⟩
                have hdr : d = r := by
                  by_contra hdr
                  have hmemf : d ∈ l.filter (· ≠ r) :=
                    List.mem_filter.2 ⟨hdl, by simp [hdr]⟩
                  rw [hfil] at hmemf
                  exact absurd hmemf (List.not_mem_nil d)
                exact (hmemA2 d).2 (Or.inr hdr)
            · refine ⟨l.filter (· ≠ r), by rw [f2 n hnL l hl, if_neg hfil], ?_⟩
              intro d
              rw [List.mem_filter]
              constructor
              · rintro ⟨hdl, hdr⟩
                obtain ⟨h1, h2⟩ := (hlmem d).1 hdl
                refine ⟨h1, fun hc => ?_⟩
                rcases (hmemA2 d).1 hc with hc | hc
                · exact h2 hc
                · simp [hc] at hdr
              · rintro ⟨h1, h2⟩
                have hdA : d ∉ acc.map Prod.fst := fun hc => h2 ((hmemA2 d).2 (Or.inl hc))
                have hdr : d ≠ r := fun hc => h2 ((hmemA2 d).2 (Or.inr hc))
                exact ⟨(hlmem d).2 ⟨h1, hdA⟩, by simp [hdr]⟩
          · have hrn : r ∉ depsFun raw n := fun hc => hnL ((hLmem n).2 ⟨hnK, hc⟩)
            refine ⟨l, by rw [f1 n hnL]; exact hl, ?_⟩
            intro d
            rw [hlmem d]
            constructor
            · rintro ⟨h1, h2⟩
              refine ⟨h1, fun hc => ?_⟩
              rcases (hmemA2 d).1 hc with hc | hc
              · exact h2 hc
              · exact hrn (hc ▸ h1)
            · rintro ⟨h1, h2⟩
              exact ⟨h1, fun hc => h2 ((hmemA2 d).2 (Or.inl hc))⟩
        · -- dtNone
          intro n hdisj
          by_cases hnL : n ∈ (alookup rt r).getD []
          · obtain ⟨hnK, hrn⟩ := (hLmem n).1 hnL
            have hnA : n ∉ acc.map Prod.fst := hLnA n hnL
            have hnr : n ≠ r := hLnr n hnL
            have hall2 : ∀ d ∈ depsFun raw n, d ∈ (acc ++ [(r, collapseSpec acc defs)]).map Prod.fst := by
              rcases hdisj with hdisj | hdisj | hdisj
              · exact absurd hnK hdisj
              · exfalso
                rcases (hmemA2 n).1 hdisj with hc | hc
                · exact hnA hc
                · exact hnr hc
              · exact hdisj
            obtain ⟨l, hl, hlmem⟩ :=
              inv.dtSome n hnK hnA (fun hall => hrA (hall r hrn))
            rw [f2 n hnL l hl, if_pos]
            rw [List.filter_eq_nil]
            intro a ha
            obtain ⟨haD, haA⟩ := (hlmem a).1 ha
            rcases (hmemA2 a).1 (hall2 a haD) with hc | hc
            · exact absurd hc haA
            · simp [hc]
          · rw [f1 n hnL]
            apply inv.dtNone
            rcases hdisj with hdisj | hdisj | hdisj
            · exact Or.inl hdisj
            · rcases (hmemA2 n).1 hdisj with hc | hc
              · exact Or.inr (Or.inl hc)
              · subst hc
                exact Or.inr (Or.inr hrdeps)
            · by_cases hnK : n ∈ raw.map Prod.fst
              · have hrn : r ∉ depsFun raw n := fun hc => hnL ((hLmem n).2 ⟨hnK, hc⟩)
                refine Or.inr (Or.inr ?_)
                intro d hd
                rcases (hmemA2 d).1 (hdisj d hd) with hc | hc
                · exact hc
                · exact absurd (hc ▸ hd) hrn
              · exact Or.inl hnK
        · -- rtMem
          intro d hdA2 n
          have hdA : d ∉ acc.map Prod.fst := fun hc => hdA2 ((hmemA2 d).2 (Or.inl hc))
          have hdr : d ≠ r := fun hc => hdA2 ((hmemA2 d).2 (Or.inr hc))
          rw [alookup_alerase_ne rt r d hdr]
          exact inv.rtMem d hdA n
        · -- rtNodup
          intro d hdA2
          have hdA : d ∉ acc.map Prod.fst := fun hc => hdA2 ((hmemA2 d).2 (Or.inl hc))
          have hdr : d ≠ r := fun hc => hdA2 ((hmemA2 d).2 (Or.inr hc))
          rw [alookup_alerase_ne rt r d hdr]
          exact inv.rtNodup d hdA
      have hfuel2 : raw.length - (acc ++ [(r, collapseSpec acc defs)]).length < fuel := by
        have hlen : ((acc ++ [(r, collapseSpec acc defs)]).map Prod.fst).length ≤
            (raw.map Prod.fst).length :=
          nodup_length_le _ _ inv2.accNodup inv2.accSub
        simp only [List.length_map, List.length_append, List.length_cons,
          List.length_nil] at hlen
        simp only [List.length_append, List.length_cons, List.length_nil]
        omega
      have hrec := ih (((alookup rt r).getD []).foldl (processDependent r) (dt, rs2)).2
        (((alookup rt r).getD []).foldl (processDependent r) (dt, rs2)).1
        (alerase rt r) (acc ++ [(r, collapseSpec acc defs)]) inv2 hfuel2
      simp only [kahnLoop, hdefs, hcol]
      exact hrec

lemma DepPath_start_mem (parsed : List (String × List CItem)) (n m : String)
    (h : DepPath (depsFun parsed) n m) : n ∈ parsed.map Prod.fst := by
  by_contra hn
  have hdeps : depsFun parsed n = [] := depsFun_not_mem parsed n hn
  cases h with
  | single a b hb =>
    rw [hdeps] at hb
    exact absurd hb (List.not_mem_nil _)
  | cons a b c hb p =>
    rw [hdeps] at hb
    exact absurd hb (List.not_mem_nil _)

/-- Overall outcome of `_processConfigSetsDefinition` on a successfully
parsed model: either every configSet is collapsed element-wise (and the
reference graph is grounded), or `CircularConfigSetDependency` is raised
and the model is empty or contains an ungrounded configSet. -/
lemma processConfigSetsDefinition_outcome (csDef : List (String × ConfigExpr))
    (modelKeys : List String) (parsed : List (String × List CItem))
    (hnd : (csDef.map Prod.fst).Nodup)
    (hp : parseConfigSets modelKeys (csDef.map Prod.fst) csDef = .ok parsed) :
    (∃ m, processConfigSetsDefinition csDef modelKeys = .ok m ∧
       ∀ n ∈ parsed.map Prod.fst,
         alookup m n = some (collapseSpec m ((alookup parsed n).getD [])) ∧
         Grounded (depsFun parsed) n)
    ∨ (∃ msg, processConfigSetsDefinition csDef modelKeys
          = .error (.circularConfigSetDependency msg) ∧
        (parsed.map Prod.fst = [] ∨
          ∃ n ∈ parsed.map Prod.fst, ¬ Grounded (depsFun parsed) n)) := by
  obtain ⟨hkeys, hrefs⟩ := parseConfigSets_ok modelKeys (csDef.map Prod.fst) csDef parsed hp
  have hndp : (parsed.map Prod.fst).Nodup := by
    rw [hkeys]
    exact hnd
  have hD : ∀ n, ∀ d ∈ depsFun parsed n, d ∈ parsed.map Prod.fst := by
    intro n d hd
    cases hal : alookup parsed n with
    | none =>
      rw [depsFun, hal] at hd
      simp [dependenciesOf] at hd
    | some defs =>
      have hmem : (n, defs) ∈ parsed := (alookup_mem_of_nodup parsed n defs hndp).2 hal
      rw [depsFun_eq parsed n defs hal, mem_dependenciesOf] at hd
      rw [hkeys]
      exact hrefs (n, defs) hmem d hd
  simp only [processConfigSetsDefinition, hp]
  by_cases hroots : (buildGraph parsed).roots = []
  · right
    rw [if_pos hroots]
    refine ⟨_, rfl, ?_⟩
    by_cases hk : parsed.map Prod.fst = []
    · exact Or.inl hk
    · obtain ⟨n0, hn0⟩ := List.exists_mem_of_ne_nil _ hk
      refine Or.inr ⟨n0, hn0, ?_⟩
      intro hg
      obtain ⟨m, hmK, hm0⟩ := grounded_has_root parsed hD n0 hg hn0
      have : m ∈ (buildGraph parsed).roots := (buildGraph_roots_char parsed hndp m).2 ⟨hmK, hm0⟩
      rw [hroots] at this
      exact absurd this (List.not_mem_nil m)
  · rw [if_neg hroots]
    have inv0 : KahnInv parsed (buildGraph parsed).roots (buildGraph parsed).depTree
        (buildGraph parsed).revTree [] := by
      refine ⟨?_, ?_, ?_, ?_, ?_, ?_, ?_, ?_, ?_, ?_, ?_, ?_⟩
      · intro n hn
        simp at hn
      · simp
      · intro n hn
        simp at hn
      · intro n hn
        simp at hn
      · intro n hn
        simp at hn
      · exact buildGraph_roots_nodup parsed hndp
      · intro n
        rw [buildGraph_roots_char parsed hndp n]
        constructor
        · rintro ⟨h1, h2⟩
          refine ⟨h1, by simp, ?_⟩
          rw [h2]
          intro d hd
          exact absurd hd (List.not_mem_nil d)
        · rintro ⟨h1, -, h3⟩
          refine ⟨h1, List.eq_nil_iff_forall_not_mem.2 ?_⟩
          intro d hd
          have := h3 d hd
          simp at this
      · exact buildGraph_dt_keys_nodup parsed hndp
      · intro n hnK hnA hnsub
        have hne : depsFun parsed n ≠ [] := by
          intro hc
          apply hnsub
          rw [hc]
          intro d hd
          exact absurd hd (List.not_mem_nil d)
        rw [buildGraph_dt_lookup parsed hndp n, if_pos ⟨hnK, hne⟩]
        refine ⟨depsFun parsed n, rfl, ?_⟩
        intro d
        simp
      · intro n hdisj
        rw [buildGraph_dt_lookup parsed hndp n, if_neg]
        rintro ⟨h1, h2⟩
        rcases hdisj with hdisj | hdisj | hdisj
        · exact hdisj h1
        · simp at hdisj
        · apply h2
          rw [List.eq_nil_iff_forall_not_mem]
          intro d hd
          have := hdisj d hd
          simp at this
      · intro d _ n
        exact buildGraph_rev_char parsed hndp d n
      · intro d _
        exact buildGraph_rev_nodup parsed d
    have hfuel : parsed.length - ([] : List (String × List String)).length < parsed.length + 1 := by
      simp
    rcases kahnLoop_spec parsed hndp hD (parsed.length + 1) (buildGraph parsed).roots
        (buildGraph parsed).depTree (buildGraph parsed).revTree [] inv0 hfuel with
      ⟨m, hm, hprop⟩ | ⟨msg, n, herr, hn1, hn2⟩
    · exact Or.inl ⟨m, hm, hprop⟩
    · exact Or.inr ⟨msg, herr, Or.inr ⟨n, hn1, hn2⟩⟩

/-- C1: for every model whose configSet reference graph is acyclic (every
parsed configSet grounded), `_processConfigSetsDefinition` succeeds and
linearises each configSet by replacing every `{ConfigSet: name}` reference
element-wise, in place, with the already-collapsed contents of the
referenced set, preserving the declaration order of the enclosing list
(the element-wise specification `collapseSpec`); in particular, for
configSets A = ["c1", {ConfigSet: B}] and B = ["c2"], build(["A"])
executes c1 first and then c2. -/
theorem configset_collapse_spec
    (csDef : List (String × ConfigExpr)) (modelKeys : List String)
    (parsed : List (String × List CItem))
    (hnd : (csDef.map Prod.fst).Nodup)
    (hp : parseConfigSets modelKeys (csDef.map Prod.fst) csDef = .ok parsed)
    (hg : ∀ n ∈ parsed.map Prod.fst, Grounded (depsFun parsed) n) :
    (∀ n ∈ parsed.map Prod.fst,
      ∃ m, processConfigSetsDefinition csDef modelKeys = .ok m ∧
        ∀ n2 ∈ parsed.map Prod.fst,
          alookup m n2 = some (collapseSpec m ((alookup parsed n2).getD []))) ∧
    fullBuild ⟨some [("A", .listE [.name "c1", .refSet "B"]), ("B", .listE [.name "c2"])],
        ["configSets", "c1", "c2"]⟩ ["A"] = .ok ["c1", "c2"] := by
  constructor
  · intro n hn
    rcases processConfigSetsDefinition_outcome csDef modelKeys parsed hnd hp with
      ⟨m, hm, hprop⟩ | ⟨msg, herr, hrest⟩
    · exact ⟨m, hm, fun n2 hn2 => (hprop n2 hn2).1⟩
    · rcases hrest with hrest | ⟨n3, hn3, hng⟩
      · rw [hrest] at hn
        exact absurd hn (List.not_mem_nil n)
      · exact absurd (hg n3 hn3) hng
  · decide

theorem configset_collapse_spec_witness :
    ∃ m, processConfigSetsDefinition
        [("A", ConfigExpr.listE [ConfigExpr.name "c1", ConfigExpr.refSet "B"]),
         ("B", ConfigExpr.listE [ConfigExpr.name "c2"])] ["configSets", "c1", "c2"]
      = .ok m ∧
      ∀ n2 ∈ ([("A", [CItem.config "c1", CItem.ref "B"]),
          ("B", [CItem.config "c2"])] : List (String × List CItem)).map Prod.fst,
        alookup m n2 = some (collapseSpec m
          ((alookup [("A", [CItem.config "c1", CItem.ref "B"]),
            ("B", [CItem.config "c2"])] n2).getD [])) := by
  have hB : Grounded (depsFun [("A", [CItem.config "c1", CItem.ref "B"]),
      ("B", [CItem.config "c2"])]) "B" := by
    refine Grounded.intro "B" ?_
    intro d hd
    rw [show depsFun [("A", [CItem.config "c1", CItem.ref "B"]),
      ("B", [CItem.config "c2"])] "B" = [] from by decide] at hd
    exact absurd hd (List.not_mem_nil d)
  have hA : Grounded (depsFun [("A", [CItem.config "c1", CItem.ref "B"]),
      ("B", [CItem.config "c2"])]) "A" := by
    refine Grounded.intro "A" ?_
    intro d hd
    rw [show depsFun [("A", [CItem.config "c1", CItem.ref "B"]),
      ("B", [CItem.config "c2"])] "A" = ["B"] from by decide] at hd
    cases List.mem_singleton.1 hd
    exact hB
  have h := configset_collapse_spec
    [("A", ConfigExpr.listE [ConfigExpr.name "c1", ConfigExpr.refSet "B"]),
     ("B", ConfigExpr.listE [ConfigExpr.name "c2"])]
    ["configSets", "c1", "c2"]
    [("A", [CItem.config "c1", CItem.ref "B"]), ("B", [CItem.config "c2"])]
    (by decide) (by decide) ?_
  · exact h.1 "A" (by decide)
  · intro n hn
    have hn2 : n = "A" ∨ n = "B" := by
      simpa using hn
    rcases hn2 with hn2 | hn2
    · rw [hn2]
      exact hA
    · rw [hn2]
      exact hB

/-- C2: for every model whose configSet reference graph contains a cycle,
`_processConfigSetsDefinition` raises `CircularConfigSetDependency`, so
`build` fails with that error and performs zero tool invocations; the
error is raised both when no dependency-free configSet exists at the
start of the topological sort and when unresolved configSets remain in
the dependency tree at its end. -/
theorem circular_configset_spec
    (csDef : List (String × ConfigExpr)) (modelKeys : List String)
    (parsed : List (String × List CItem))
    (hnd : (csDef.map Prod.fst).Nodup)
    (hp : parseConfigSets modelKeys (csDef.map Prod.fst) csDef = .ok parsed)
    (hcyc : ∃ n, DepPath (depsFun parsed) n n) :
    (∃ msg, processConfigSetsDefinition csDef modelKeys
        = .error (.circularConfigSetDependency msg) ∧
      ∀ requested, fullBuild ⟨some csDef, modelKeys⟩ requested
        = .error (.circularConfigSetDependency msg)) ∧
    processConfigSetsDefinition [("A", .listE [.refSet "B"]), ("B", .listE [.refSet "A"])]
        ["configSets"]
      = .error (.circularConfigSetDependency
          "No configSets exist without references; this creates a circular dependency and is not allowed") ∧
    processConfigSetsDefinition
        [("R", .listE [.name "c"]), ("A", .listE [.refSet "B"]), ("B", .listE [.refSet "A"])]
        ["configSets", "c"]
      = .error (.circularConfigSetDependency
          "At least one circular dependency detected; this is not allowed.") := by
  refine ⟨?_, by decide, by decide⟩
  obtain ⟨n, hpath⟩ := hcyc
  have hnK : n ∈ parsed.map Prod.fst := DepPath_start_mem parsed n n hpath
  rcases processConfigSetsDefinition_outcome csDef modelKeys parsed hnd hp with
    ⟨m, hm, hprop⟩ | ⟨msg, herr, -⟩
  · exact absurd hpath (grounded_not_cycle ((hprop n hnK).2))
  · refine ⟨msg, herr, ?_⟩
    intro requested
    have hcs : contractorConfigSets ⟨some csDef, modelKeys⟩
        = .error (.circularConfigSetDependency msg) := herr
    simp only [fullBuild, hcs]

theorem circular_configset_spec_witness :
    ∃ msg, processConfigSetsDefinition
        [("R", ConfigExpr.listE [ConfigExpr.name "c"]),
         ("A", ConfigExpr.listE [ConfigExpr.refSet "B"]),
         ("B", ConfigExpr.listE [ConfigExpr.refSet "A"])] ["configSets", "c"]
      = .error (.circularConfigSetDependency msg) ∧
      ∀ requested, fullBuild
        ⟨some [("R", ConfigExpr.listE [ConfigExpr.name "c"]),
          ("A", ConfigExpr.listE [ConfigExpr.refSet "B"]),
          ("B", ConfigExpr.listE [ConfigExpr.refSet "A"])], ["configSets", "c"]⟩ requested
        = .error (.circularConfigSetDependency msg) :=
  (circular_configset_spec
    [("R", ConfigExpr.listE [ConfigExpr.name "c"]),
     ("A", ConfigExpr.listE [ConfigExpr.refSet "B"]),
     ("B", ConfigExpr.listE [ConfigExpr.refSet "A"])]
    ["configSets", "c"]
    [("R", [CItem.config "c"]), ("A", [CItem.ref "B"]), ("B", [CItem.ref "A"])]
    (by decide) (by decide)
    ⟨"A", DepPath.cons "A" "B" "A" (by decide)
      (DepPath.single "B" "A" (by decide))⟩).1

end CfnBootstrap
